import Mathlib

/-!
Verification development for the decentralised cloud storage system:
a shallow embedding of the confidential chunked transfer engine
(per-chunk authenticated encryption, resumable upload session,
bounded-concurrency worker pool, multi-gateway retrieval) and of the
TimeBoundFileRegistry access-control ledger contract, together with
proofs of the specified properties.

Sources embedded:
- src/server/contract.sol (TimeBoundFileRegistry)
- src/frontend/src/services/cryptoService.ts (encryptChunk / decryptChunk)
- src/frontend/src/services/chunkedUpload.ts (chunkedUploadFile, worker pool)
- src/frontend/src/services/chunkedDownload.ts (chunkedDownloadFile)
- src/frontend/src/utils/ipfsGateway.ts (fetchFromIPFSGateway, classifyError)
-/

namespace DCS

/-! ## TimeBoundFileRegistry (src/server/contract.sol)

Addresses are modelled as naturals (0 is address(0)); byte strings as
`List Nat`; block timestamps as naturals.  Solidity mappings return the
all-zero struct for absent keys, so records carry the explicit
`existsFlag` field exactly as the contract's structs carry `exists`.
The keccak256-based `_cidHash` / `_fileKey` derivations are abstracted
as parameters of the model; no property below needs anything about them
beyond what the contract uses (pure functions of their arguments). -/

abbrev Addr := Nat

/-- `FileRecord` struct of contract.sol. -/
structure FileRecord where
  cid : String
  encryptedKey : List Nat
  timestamp : Nat
  revoked : Bool
  existsFlag : Bool
  deriving Repr, DecidableEq

/-- The all-zero `FileRecord` a Solidity mapping yields for an absent key. -/
def FileRecord.empty : FileRecord :=
  { cid := "", encryptedKey := [], timestamp := 0, revoked := false, existsFlag := false }

/-- `AccessRecord` struct of contract.sol. -/
structure AccessRecord where
  encryptedKeyForGrantee : List Nat
  start : Nat
  stop : Nat
  revoked : Bool
  existsFlag : Bool
  deriving Repr, DecidableEq

/-- The all-zero `AccessRecord` a Solidity mapping yields for an absent key. -/
def AccessRecord.empty : AccessRecord :=
  { encryptedKeyForGrantee := [], start := 0, stop := 0, revoked := false, existsFlag := false }

/-- Hash parameters of the registry model: `_cidHash` (keccak256 of the cid
string) and `_fileKey` (keccak256 of owner ++ cidHash), kept abstract. -/
structure HashFns where
  cidHash : String → Nat
  fileKey : Addr → Nat → Nat

/-- Contract storage: `uploads` and `access` mappings of contract.sol. -/
structure Registry where
  uploads : Addr → Nat → FileRecord
  access : Nat → Addr → AccessRecord

/-- The deployed contract's initial storage: every mapping entry zero. -/
def Registry.empty : Registry :=
  { uploads := fun _ _ => FileRecord.empty, access := fun _ _ => AccessRecord.empty }

/-- Point update of the `uploads` mapping. -/
def Registry.setUpload (st : Registry) (owner : Addr) (h : Nat) (rec : FileRecord) :
    Registry :=
  { st with uploads := fun o k => if o = owner ∧ k = h then rec else st.uploads o k }

/-- Point update of the `access` mapping. -/
def Registry.setAccess (st : Registry) (fk : Nat) (grantee : Addr) (rec : AccessRecord) :
    Registry :=
  { st with access := fun f g => if f = fk ∧ g = grantee then rec else st.access f g }

/-- `uploadFile(cid, encryptedKey)` of contract.sol (lines 39-56):
requires a non-empty cid and key and no existing record, then stores a
fresh unrevoked `FileRecord` under `(msg.sender, _cidHash(cid))`. -/
def uploadFile (H : HashFns) (st : Registry) (sender : Addr) (cid : String)
    (encryptedKey : List Nat) (blockTimestamp : Nat) : Except String Registry :=
  if cid.length = 0 then .error "CID_REQUIRED"
  else if encryptedKey.length = 0 then .error "ENCRYPTED_KEY_REQUIRED"
  else
    let ch := H.cidHash cid
    let frec := st.uploads sender ch
    if frec.existsFlag then .error "ALREADY_EXISTS"
    else .ok (st.setUpload sender ch
      { cid := cid, encryptedKey := encryptedKey, timestamp := blockTimestamp,
        revoked := false, existsFlag := true })

/-- `revokeFile(cid)` of contract.sol (lines 73-83). -/
def revokeFile (H : HashFns) (st : Registry) (sender : Addr) (cid : String)
    (blockTimestamp : Nat) : Except String Registry :=
  let ch := H.cidHash cid
  let frec := st.uploads sender ch
  if ¬frec.existsFlag then .error "NOT_FOUND"
  else if frec.revoked then .error "ALREADY_REVOKED"
  else .ok (st.setUpload sender ch { frec with revoked := true, timestamp := blockTimestamp })

/-- `grantAccess(grantee, cid, encryptedKeyForGrantee, start, end)` of
contract.sol (lines 85-113): after the requires, it overwrites every
field of the access record, in particular resetting `revoked` to false. -/
def grantAccess (H : HashFns) (st : Registry) (sender : Addr) (grantee : Addr)
    (cid : String) (encryptedKeyForGrantee : List Nat) (start stop : Nat) :
    Except String Registry :=
  if grantee = 0 then .error "INVALID_GRANTEE"
  else if cid.length = 0 then .error "CID_REQUIRED"
  else if encryptedKeyForGrantee.length = 0 then .error "ENCRYPTED_KEY_REQUIRED"
  else if ¬(stop > start) then .error "END_MUST_BE_GT_START"
  else
    let ch := H.cidHash cid
    let frec := st.uploads sender ch
    if ¬frec.existsFlag then .error "OWNER_FILE_NOT_FOUND"
    else if frec.revoked then .error "OWNER_FILE_REVOKED"
    else
      let fk := H.fileKey sender ch
      .ok (st.setAccess fk grantee
        { encryptedKeyForGrantee := encryptedKeyForGrantee, start := start,
          stop := stop, revoked := false, existsFlag := true })

/-- `revokeAccess(grantee, cid)` of contract.sol (lines 115-127). -/
def revokeAccess (H : HashFns) (st : Registry) (sender : Addr) (grantee : Addr)
    (cid : String) : Except String Registry :=
  if grantee = 0 then .error "INVALID_GRANTEE"
  else
    let ch := H.cidHash cid
    let fk := H.fileKey sender ch
    let arec := st.access fk grantee
    if ¬arec.existsFlag then .error "ACCESS_NOT_FOUND"
    else if arec.revoked then .error "ACCESS_ALREADY_REVOKED"
    else .ok (st.setAccess fk grantee { arec with revoked := true })

/-- `isAccessActive(owner, cid, grantee)` of contract.sol (lines 140-156):
false if the owner's file record is absent or revoked, false if the
access record is absent or revoked, otherwise `start <= now < end`. -/
def isAccessActive (H : HashFns) (st : Registry) (owner : Addr) (cid : String)
    (grantee : Addr) (blockTimestamp : Nat) : Bool :=
  let ch := H.cidHash cid
  let frec := st.uploads owner ch
  if ¬frec.existsFlag ∨ frec.revoked then false
  else
    let fk := H.fileKey owner ch
    let arec := st.access fk grantee
    if ¬arec.existsFlag ∨ arec.revoked then false
    else decide (arec.start ≤ blockTimestamp ∧ blockTimestamp < arec.stop)

/-- `getAccess(owner, cid, grantee)` of contract.sol (lines 129-138). -/
def getAccess (H : HashFns) (st : Registry) (owner : Addr) (cid : String)
    (grantee : Addr) : AccessRecord :=
  st.access (H.fileKey owner (H.cidHash cid)) grantee

end DCS

namespace DCS

/-- C3: with an existing unrevoked file record and an existing unrevoked
grant, `isAccessActive` is exactly the window test; and a revoked grant
is inactive at every timestamp. -/
theorem isAccessActive_window (H : HashFns) (st : Registry) (owner : Addr)
    (cid : String) (grantee : Addr)
    (hfe : (st.uploads owner (H.cidHash cid)).existsFlag = true)
    (hfr : (st.uploads owner (H.cidHash cid)).revoked = false)
    (hae : (st.access (H.fileKey owner (H.cidHash cid)) grantee).existsFlag = true) :
    (∀ now,
      (st.access (H.fileKey owner (H.cidHash cid)) grantee).revoked = false →
        (isAccessActive H st owner cid grantee now = true ↔
          (st.access (H.fileKey owner (H.cidHash cid)) grantee).start ≤ now ∧
            now < (st.access (H.fileKey owner (H.cidHash cid)) grantee).stop)) ∧
    (∀ now,
      (st.access (H.fileKey owner (H.cidHash cid)) grantee).revoked = true →
        isAccessActive H st owner cid grantee now = false) := by
  constructor
  · intro now har
    simp [isAccessActive, hfe, hfr, hae, har]
  · intro now har
    simp [isAccessActive, hfe, hfr, hae, har]

/-- Concrete hash functions used by witnesses. -/
def wHash : HashFns := { cidHash := String.length, fileKey := fun o h => o + h }

/-- Concrete registry state used by witnesses: owner 5 holds a live file
record for cid "abc" and grantee 7 has a grant on window [10, 20). -/
def wReg : Registry :=
  (Registry.empty.setUpload 5 3
    { cid := "abc", encryptedKey := [1], timestamp := 0,
      revoked := false, existsFlag := true }).setAccess 8 7
    { encryptedKeyForGrantee := [2], start := 10, stop := 20,
      revoked := false, existsFlag := true }

/-- Witness for `isAccessActive_window` at a concrete registry state. -/
theorem isAccessActive_window_witness :
    (isAccessActive wHash wReg 5 "abc" 7 10 = true) ∧
      (isAccessActive wHash wReg 5 "abc" 7 9 = false) ∧
      (isAccessActive wHash wReg 5 "abc" 7 20 = false) := by
  have h := isAccessActive_window wHash wReg 5 "abc" 7 (by decide) (by decide) (by decide)
  exact ⟨(h.1 10 (by decide)).2 (by decide), by decide, by decide⟩

/-- C9: `grantAccess` on a live file record succeeds and overwrites the
whole access record for (owner, cid, grantee), resetting `revoked` to
false; hence a previously revoked grant becomes active again inside the
new window — revocation is not permanent. -/
theorem grantAccess_overwrites_and_reactivates (H : HashFns) (st : Registry)
    (owner grantee : Addr) (cid : String) (key : List Nat) (start stop : Nat)
    (hg : grantee ≠ 0) (hc : cid.length ≠ 0) (hk : key.length ≠ 0)
    (hw : stop > start)
    (hfe : (st.uploads owner (H.cidHash cid)).existsFlag = true)
    (hfr : (st.uploads owner (H.cidHash cid)).revoked = false) :
    ∃ st', grantAccess H st owner grantee cid key start stop = .ok st' ∧
      st'.access (H.fileKey owner (H.cidHash cid)) grantee =
        { encryptedKeyForGrantee := key, start := start, stop := stop,
          revoked := false, existsFlag := true } ∧
      (∀ now, start ≤ now → now < stop →
        isAccessActive H st' owner cid grantee now = true) := by
  refine ⟨st.setAccess (H.fileKey owner (H.cidHash cid)) grantee
    { encryptedKeyForGrantee := key, start := start, stop := stop,
      revoked := false, existsFlag := true }, ?_, ?_, ?_⟩
  · simp [grantAccess, hg, hc, hk, hw, hfe, hfr]
  · simp [Registry.setAccess]
  · intro now h1 h2
    simp [isAccessActive, Registry.setAccess, hfe, hfr, h1, h2]

/-- Witness for `grantAccess_overwrites_and_reactivates`: a grant that was
revoked via `revokeAccess` is re-granted and is active again. -/
theorem grantAccess_overwrites_and_reactivates_witness :
    ∃ st', grantAccess wHash
        (wReg.setAccess 8 7
          { encryptedKeyForGrantee := [2], start := 10, stop := 20,
            revoked := true, existsFlag := true }) 5 7 "abc" [9] 30 40 = .ok st' ∧
      st'.access 8 7 =
        { encryptedKeyForGrantee := [9], start := 30, stop := 40,
          revoked := false, existsFlag := true } ∧
      (∀ now, 30 ≤ now → now < 40 → isAccessActive wHash st' 5 "abc" 7 now = true) := by
  exact grantAccess_overwrites_and_reactivates wHash
    (wReg.setAccess 8 7
      { encryptedKeyForGrantee := [2], start := 10, stop := 20,
        revoked := true, existsFlag := true }) 5 7 "abc" [9] 30 40
    (by decide) (by decide) (by decide) (by decide) (by decide) (by decide)

end DCS

namespace DCS

/-! ## ChunkCipher (src/frontend/src/services/cryptoService.ts)

Bytes are `Nat`s and byte strings `List Nat`.  `encryptChunk` draws a
random 96-bit IV, sets the AES-GCM additional authenticated data to the
UTF-8 bytes of `chunkIndex.toString()`, and packs `iv || ciphertext`
(the ciphertext carries the 16-byte GCM tag at its end).  `decryptChunk`
rejects packed data shorter than 13 bytes with "Packed data too small",
splits off the first 12 bytes as IV, rebuilds the same AAD, and calls
AES-GCM decryption, which throws an OperationError on any
authentication failure.

The AES-GCM primitive itself lives in the Web Crypto API, outside the
repository, so it is a parameter of the embedding: an `AEAD` record,
together with the `IdealAEAD` axioms an authenticated cipher is trusted
to satisfy (round-trip correctness; a 16-byte tag; decryption succeeds
only on the genuine encryption under the same key, IV and AAD; and no
single-byte modification of a ciphertext is again a valid ciphertext).
A concrete computable instance `toyAEAD` witnesses that the axioms are
satisfiable. -/

/-- AAD of chunk `i`: the UTF-8 bytes of the decimal string
`chunkIndex.toString()` built by `new TextEncoder().encode(...)`. -/
def aadOf (i : Nat) : List Nat :=
  if i = 0 then [48] else (Nat.digits 10 i).reverse.map (fun d => 48 + d)

/-- Decimal-string decoder used only to prove `aadOf` injective. -/
def decodeAad (l : List Nat) : Nat :=
  Nat.ofDigits 10 ((l.map (fun c => c - 48)).reverse)

theorem decodeAad_aadOf (i : Nat) : decodeAad (aadOf i) = i := by
  by_cases h : i = 0
  · subst h
    simp [aadOf, decodeAad, Nat.ofDigits]
  · simp only [aadOf, decodeAad, if_neg h, List.map_map, List.map_reverse,
      List.reverse_reverse]
    have hm : ((Nat.digits 10 i).map ((fun c => c - 48) ∘ fun d => 48 + d)) =
        Nat.digits 10 i := by
      rw [List.map_congr_left, List.map_id]
      intro a _
      simp
    rw [hm, Nat.ofDigits_digits]

theorem aadOf_inj {i j : Nat} (h : aadOf i = aadOf j) : i = j := by
  rw [← decodeAad_aadOf i, h, decodeAad_aadOf]

/-- An authenticated cipher with associated data:
`enc key iv aad plaintext` and `dec key iv aad ciphertext`. -/
structure AEAD where
  enc : List Nat → List Nat → List Nat → List Nat → List Nat
  dec : List Nat → List Nat → List Nat → List Nat → Option (List Nat)

/-- The idealised properties AES-GCM is trusted to have. -/
structure IdealAEAD (A : AEAD) : Prop where
  enc_len : ∀ k iv aad p, (A.enc k iv aad p).length = p.length + 16
  dec_enc : ∀ k iv aad p, A.dec k iv aad (A.enc k iv aad p) = some p
  dec_genuine : ∀ k iv aad ct p, A.dec k iv aad ct = some p → A.enc k iv aad p = ct
  enc_inj : ∀ k iv aad p iv2 aad2 p2,
    A.enc k iv aad p = A.enc k iv2 aad2 p2 → iv = iv2 ∧ aad = aad2 ∧ p = p2
  enc_set_ne : ∀ k iv aad p p2 pos b, pos < (A.enc k iv aad p).length →
    b ≠ (A.enc k iv aad p).getD pos 0 → p2 ≠ p →
    A.enc k iv aad p2 ≠ (A.enc k iv aad p).set pos b

/-- Injective code of a byte string, used by the toy cipher's tag. -/
def eL (l : List Nat) : Nat := l.foldr (fun a r => Nat.pair a r + 1) 0

theorem eL_inj : ∀ {l1 l2 : List Nat}, eL l1 = eL l2 → l1 = l2 := by
  intro l1
  induction l1 with
  | nil =>
    intro l2 h
    cases l2 with
    | nil => rfl
    | cons b t => simp [eL] at h
  | cons a t ih =>
    intro l2 h
    cases l2 with
    | nil => simp [eL] at h
    | cons b t2 =>
      simp only [eL, List.foldr_cons, Nat.add_right_cancel_iff] at h
      have hp := Nat.pair_eq_pair.mp h
      rw [hp.1, ih hp.2]

/-- Injective code of a (key, iv, aad, plaintext) quadruple. -/
def encodeQuad (k iv aad p : List Nat) : Nat :=
  Nat.pair (eL k) (Nat.pair (eL iv) (Nat.pair (eL aad) (eL p)))

theorem encodeQuad_inj {k iv aad p k2 iv2 aad2 p2 : List Nat}
    (h : encodeQuad k iv aad p = encodeQuad k2 iv2 aad2 p2) :
    k = k2 ∧ iv = iv2 ∧ aad = aad2 ∧ p = p2 := by
  unfold encodeQuad at h
  have h1 := Nat.pair_eq_pair.mp h
  have h2 := Nat.pair_eq_pair.mp h1.2
  have h3 := Nat.pair_eq_pair.mp h2.2
  exact ⟨eL_inj h1.1, eL_inj h2.1, eL_inj h3.1, eL_inj h3.2⟩

/-- Toy authenticated cipher: the "ciphertext" is the plaintext followed
by a 16-byte tag that encodes the whole (key, iv, aad, plaintext). -/
def toyEnc (k iv aad p : List Nat) : List Nat :=
  p ++ (List.replicate 15 0 ++ [encodeQuad k iv aad p])

/-- Toy decryption: strip the 16-byte tag and re-verify it. -/
def toyDec (k iv aad ct : List Nat) : Option (List Nat) :=
  if ct.length < 16 then none
  else if toyEnc k iv aad (ct.take (ct.length - 16)) = ct then
    some (ct.take (ct.length - 16))
  else none

def toyAEAD : AEAD := { enc := toyEnc, dec := toyDec }

theorem toyEnc_len (k iv aad p : List Nat) : (toyEnc k iv aad p).length = p.length + 16 := by
  simp [toyEnc]

theorem toyEnc_concat (k iv aad p : List Nat) :
    toyEnc k iv aad p = (p ++ List.replicate 15 0) ++ [encodeQuad k iv aad p] := by
  simp [toyEnc]

theorem toyEnc_inj {k iv aad p iv2 aad2 p2 : List Nat}
    (h : toyEnc k iv aad p = toyEnc k iv2 aad2 p2) :
    iv = iv2 ∧ aad = aad2 ∧ p = p2 := by
  have hlast : some (encodeQuad k iv aad p) = some (encodeQuad k iv2 aad2 p2) := by
    rw [← List.getLast?_concat (p ++ List.replicate 15 0),
      ← List.getLast?_concat (p2 ++ List.replicate 15 0), ← toyEnc_concat, ← toyEnc_concat, h]
  have hq := encodeQuad_inj (Option.some.inj hlast)
  exact ⟨hq.2.1, hq.2.2.1, hq.2.2.2⟩

theorem toy_dec_enc (k iv aad p : List Nat) :
    toyDec k iv aad (toyEnc k iv aad p) = some p := by
  have ht : (toyEnc k iv aad p).take ((toyEnc k iv aad p).length - 16) = p := by
    rw [toyEnc_len]
    have h16 : p.length + 16 - 16 = p.length := by omega
    rw [h16, toyEnc, List.take_left]
  unfold toyDec
  rw [if_neg (by rw [toyEnc_len]; omega), if_pos (by rw [ht])]
  rw [ht]

theorem toy_dec_genuine (k iv aad ct p : List Nat) (h : toyDec k iv aad ct = some p) :
    toyEnc k iv aad p = ct := by
  unfold toyDec at h
  split at h
  · exact absurd h (by simp)
  · split at h
    · rename_i heq
      cases h
      exact heq
    · exact absurd h (by simp)

theorem toy_set_ne (k iv aad p p2 : List Nat) (pos b : Nat)
    (hpos : pos < (toyEnc k iv aad p).length) (hne : p2 ≠ p)
    (heq : toyEnc k iv aad p2 = (toyEnc k iv aad p).set pos b) : False := by
  rw [toyEnc_len] at hpos
  by_cases hc : pos < (p ++ List.replicate 15 0).length
  · rw [toyEnc_concat k iv aad p, List.set_append_left pos b hc] at heq
    have hlast : some (encodeQuad k iv aad p2) = some (encodeQuad k iv aad p) := by
      rw [← List.getLast?_concat (p2 ++ List.replicate 15 0),
        ← List.getLast?_concat ((p ++ List.replicate 15 0).set pos b),
        ← toyEnc_concat k iv aad p2, heq]
    exact hne (encodeQuad_inj (Option.some.inj hlast)).2.2.2
  · have hlen : (p ++ List.replicate 15 0).length = p.length + 15 := by simp
    have hple : (p ++ List.replicate 15 0).length ≤ pos := by omega
    rw [toyEnc_concat k iv aad p, List.set_append_right pos b hple] at heq
    have hpos0 : pos - (p ++ List.replicate 15 0).length = 0 := by omega
    rw [hpos0] at heq
    have heq2 : p2 ++ (List.replicate 15 0 ++ [encodeQuad k iv aad p2]) =
        p ++ (List.replicate 15 0 ++ [b]) := by
      rw [toyEnc] at heq
      simpa [List.append_assoc] using heq
    have hlen2 : p2.length = p.length := by
      have := congrArg List.length heq2
      simp at this
      omega
    exact hne (List.append_inj heq2 hlen2).1

theorem toy_ideal : IdealAEAD toyAEAD :=
  { enc_len := toyEnc_len
    dec_enc := toy_dec_enc
    dec_genuine := toy_dec_genuine
    enc_inj := fun _ _ _ _ _ _ _ h => toyEnc_inj h
    enc_set_ne := fun k iv aad p p2 pos b hpos _ hne heq =>
      toy_set_ne k iv aad p p2 pos b hpos hne heq }

/-- Chunk size default from `defaultChunkSize()` in chunkedUpload.ts. -/
def maxChunkSize : Nat := 2 * 1024 * 1024

/-- Result shape of `encryptChunk`: `{ packed, iv }`. -/
structure EncryptedChunk where
  packed : List Nat
  iv : List Nat
  deriving Repr, DecidableEq

/-- `encryptChunk(key, data, chunkIndex)` of cryptoService.ts (lines
70-90): fresh 12-byte IV (a parameter here, since it is random), AAD =
decimal string of the index, packed = `iv || ciphertext`. -/
def encryptChunk (A : AEAD) (key iv data : List Nat) (chunkIndex : Nat) :
    EncryptedChunk :=
  { packed := iv ++ A.enc key iv (aadOf chunkIndex) data, iv := iv }

/-- `decryptChunk(key, packedData, chunkIndex)` of cryptoService.ts
(lines 95-114): the 13-byte minimum check, then IV = first 12 bytes,
ciphertext = rest, AAD = decimal string of the index. -/
def decryptChunk (A : AEAD) (key packedData : List Nat) (chunkIndex : Nat) :
    Except String (List Nat) :=
  if packedData.length < 13 then .error "Packed data too small"
  else
    match A.dec key (packedData.take 12) (aadOf chunkIndex) (packedData.drop 12) with
    | some p => .ok p
    | none => .error "OperationError"

end DCS

namespace DCS

/-- One bit flipped in the byte at position `pos` of a packed chunk. -/
def flipBit (l : List Nat) (pos bit : Nat) : List Nat :=
  l.set pos ((l.getD pos 0) ^^^ (2 ^ bit))

theorem xor_pow_ne (a bit : Nat) : a ^^^ 2 ^ bit ≠ a := by
  intro hc
  have h3 : a ^^^ (a ^^^ 2 ^ bit) = a ^^^ a := by rw [hc]
  rw [← Nat.xor_assoc, Nat.xor_self, Nat.zero_xor] at h3
  exact absurd h3 (Nat.pos_pow_of_pos bit (by omega)).ne'

theorem getD_set_self (l : List Nat) (n v : Nat) (h : n < l.length) :
    (l.set n v).getD n 0 = v := by
  rw [List.getD_eq_getElem?_getD, List.getElem?_set_self (by simpa using h)]
  rfl

theorem getD_append_left (l r : List Nat) (n : Nat) (h : n < l.length) :
    (l ++ r).getD n 0 = l.getD n 0 := by
  rw [List.getD_eq_getElem?_getD, List.getD_eq_getElem?_getD,
    List.getElem?_append_left h]

theorem getD_append_right (l r : List Nat) (n : Nat) (h : l.length ≤ n) :
    (l ++ r).getD n 0 = r.getD (n - l.length) 0 := by
  rw [List.getD_eq_getElem?_getD, List.getD_eq_getElem?_getD,
    List.getElem?_append_right h]

theorem set_ne_self (l : List Nat) (n v : Nat) (h : n < l.length)
    (hv : v ≠ l.getD n 0) : l.set n v ≠ l := by
  intro he
  apply hv
  rw [← getD_set_self l n v h, he]

/-- C2: for every AES key, every plaintext (in particular of any size up
to `maxChunkSize`) and every chunk index, decrypting the packed output
of `encryptChunk` with the same key and index returns the plaintext. -/
theorem decryptChunk_encryptChunk (A : AEAD) (hA : IdealAEAD A)
    (key iv p : List Nat) (i : Nat) (hiv : iv.length = 12)
    (hp : p.length ≤ maxChunkSize) :
    decryptChunk A key (encryptChunk A key iv p i).packed i = .ok p := by
  have hct := hA.enc_len key iv (aadOf i) p
  have h1 : (iv ++ A.enc key iv (aadOf i) p).take 12 = iv := by
    rw [← hiv]
    exact List.take_left iv _
  have h2 : (iv ++ A.enc key iv (aadOf i) p).drop 12 = A.enc key iv (aadOf i) p := by
    rw [← hiv]
    exact List.drop_left iv _
  show decryptChunk A key (iv ++ A.enc key iv (aadOf i) p) i = .ok p
  unfold decryptChunk
  rw [if_neg (by simp [hiv, hct]; omega), h1, h2, hA.dec_enc]

/-- Witness for `decryptChunk_encryptChunk` on the toy cipher. -/
theorem decryptChunk_encryptChunk_witness :
    decryptChunk toyAEAD [1] (encryptChunk toyAEAD [1] (List.replicate 12 0) [7, 7] 3).packed 3 =
      .ok [7, 7] :=
  decryptChunk_encryptChunk toyAEAD toy_ideal [1] (List.replicate 12 0) [7, 7] 3
    (by decide) (by decide)

/-- C6: decrypting a packed chunk with the wrong index fails with an
authentication failure, and decrypting a packed chunk with any single
bit flipped also fails with an authentication failure. -/
theorem decryptChunk_reject_tamper (A : AEAD) (hA : IdealAEAD A)
    (key iv p : List Nat) (i : Nat) (hiv : iv.length = 12) :
    (∀ j, j ≠ i →
      decryptChunk A key (encryptChunk A key iv p i).packed j =
        .error "OperationError") ∧
    (∀ pos bit, pos < (encryptChunk A key iv p i).packed.length →
      decryptChunk A key (flipBit (encryptChunk A key iv p i).packed pos bit) i =
        .error "OperationError") := by
  have hct := hA.enc_len key iv (aadOf i) p
  constructor
  · intro j hji
    have h1 : (iv ++ A.enc key iv (aadOf i) p).take 12 = iv := by
      rw [← hiv]
      exact List.take_left iv _
    have h2 : (iv ++ A.enc key iv (aadOf i) p).drop 12 = A.enc key iv (aadOf i) p := by
      rw [← hiv]
      exact List.drop_left iv _
    show decryptChunk A key (iv ++ A.enc key iv (aadOf i) p) j = .error "OperationError"
    unfold decryptChunk
    rw [if_neg (by simp [hiv, hct]; omega), h1, h2]
    cases hdec : A.dec key iv (aadOf j) (A.enc key iv (aadOf i) p) with
    | none => rfl
    | some q =>
      have hgen := hA.dec_genuine key iv (aadOf j) _ q hdec
      have hinj := hA.enc_inj key iv (aadOf j) q iv (aadOf i) p hgen
      exact absurd (aadOf_inj hinj.2.1) hji
  · intro pos bit hpos
    have hplen : (encryptChunk A key iv p i).packed.length = 12 + (p.length + 16) := by
      simp [encryptChunk, hiv, hct]
    rw [hplen] at hpos
    set ct := A.enc key iv (aadOf i) p with hctdef
    set v := ((encryptChunk A key iv p i).packed.getD pos 0) ^^^ (2 ^ bit) with hvdef
    have hvne : v ≠ (iv ++ ct).getD pos 0 := by
      show ((iv ++ ct).getD pos 0) ^^^ (2 ^ bit) ≠ (iv ++ ct).getD pos 0
      exact xor_pow_ne _ bit
    show decryptChunk A key ((iv ++ ct).set pos v) i = .error "OperationError"
    by_cases hc : pos < 12
    · have hcl : pos < iv.length := by omega
      have hset : (iv ++ ct).set pos v = iv.set pos v ++ ct :=
        List.set_append_left pos v hcl
      have hivlen : (iv.set pos v).length = 12 := by simp [hiv]
      have h1 : (iv.set pos v ++ ct).take 12 = iv.set pos v := by
        rw [← hivlen]
        exact List.take_left _ _
      have h2 : (iv.set pos v ++ ct).drop 12 = ct := by
        rw [← hivlen]
        exact List.drop_left _ _
      have hivne : iv.set pos v ≠ iv := by
        apply set_ne_self iv pos v hcl
        rw [← getD_append_left iv ct pos hcl]
        exact hvne
      rw [hset]
      unfold decryptChunk
      rw [if_neg (by simp [hivlen, hct]; omega), h1, h2]
      cases hdec : A.dec key (iv.set pos v) (aadOf i) ct with
      | none => rfl
      | some q =>
        have hgen := hA.dec_genuine key (iv.set pos v) (aadOf i) _ q hdec
        rw [hctdef] at hgen
        have hinj := hA.enc_inj key (iv.set pos v) (aadOf i) q iv (aadOf i) p hgen
        exact absurd hinj.1 hivne
    · have hcl : iv.length ≤ pos := by omega
      have hset : (iv ++ ct).set pos v = iv ++ ct.set (pos - 12) v := by
        rw [List.set_append_right pos v hcl, hiv]
      have hpos2 : pos - 12 < ct.length := by
        rw [hA.enc_len]
        omega
      have hctlen : (ct.set (pos - 12) v).length = ct.length := by simp
      have h1 : (iv ++ ct.set (pos - 12) v).take 12 = iv := by
        rw [← hiv]
        exact List.take_left _ _
      have h2 : (iv ++ ct.set (pos - 12) v).drop 12 = ct.set (pos - 12) v := by
        rw [← hiv]
        exact List.drop_left _ _
      have hv2 : v ≠ ct.getD (pos - 12) 0 := by
        have h12 : (iv ++ ct).getD pos 0 = ct.getD (pos - 12) 0 := by
          have hgr := getD_append_right iv ct pos hcl
          rwa [hiv] at hgr
        rw [← h12]
        exact hvne
      have hctne : ct.set (pos - 12) v ≠ ct := set_ne_self ct (pos - 12) v hpos2 hv2
      rw [hset]
      unfold decryptChunk
      rw [if_neg (by simp [hiv, hctlen, hct]; omega), h1, h2]
      cases hdec : A.dec key iv (aadOf i) (ct.set (pos - 12) v) with
      | none => rfl
      | some q =>
        have hgen := hA.dec_genuine key iv (aadOf i) _ q hdec
        by_cases hq : q = p
        · rw [hq, ← hctdef] at hgen
          exact absurd hgen.symm hctne
        · exact absurd hgen
            (hA.enc_set_ne key iv (aadOf i) p q (pos - 12) v
              (by rw [hA.enc_len]; omega) hv2 hq)

/-- Witness for `decryptChunk_reject_tamper` on the toy cipher. -/
theorem decryptChunk_reject_tamper_witness :
    (decryptChunk toyAEAD [1]
        (encryptChunk toyAEAD [1] (List.replicate 12 0) [7, 7] 0).packed 1 =
      .error "OperationError") ∧
    (decryptChunk toyAEAD [1]
        (flipBit (encryptChunk toyAEAD [1] (List.replicate 12 0) [7, 7] 0).packed 0 0) 0 =
      .error "OperationError") := by
  have h := decryptChunk_reject_tamper toyAEAD toy_ideal [1] (List.replicate 12 0)
    [7, 7] 0 (by decide)
  refine ⟨h.1 1 (by decide), h.2 0 0 ?_⟩
  show 0 < (List.replicate 12 0 ++ toyEnc [1] (List.replicate 12 0) (aadOf 0) [7, 7]).length
  rw [List.length_append, toyEnc_len]
  omega

/-- C7 counterexample: a 20-byte packed input is below the 28-byte
nonce+tag minimum, yet `decryptChunk` does not fail with the
MalformedChunk error "Packed data too small" — its guard only rejects
inputs shorter than 13 bytes, so a 20-byte input reaches AES-GCM
decryption and fails there as an authentication failure instead. -/
theorem decryptChunk_short_not_malformed :
    (List.replicate 20 0).length < 28 ∧
      decryptChunk toyAEAD [1] (List.replicate 20 0) 0 ≠
        Except.error "Packed data too small" := by
  constructor
  · decide
  · have h : decryptChunk toyAEAD [1] (List.replicate 20 0) 0 =
        .error "OperationError" := by rfl
    rw [h]
    intro hc
    exact absurd (Except.error.inj hc) (by decide)

/-- C7 (amended): packed inputs shorter than 13 bytes fail with the
MalformedChunk error "Packed data too small" before any decryption is
attempted — the result is this error for every possible AEAD primitive. -/
theorem decryptChunk_short_malformed (A : AEAD) (key packed : List Nat) (i : Nat)
    (h : packed.length < 13) :
    decryptChunk A key packed i = .error "Packed data too small" := by
  unfold decryptChunk
  rw [if_pos h]

/-- Witness for `decryptChunk_short_malformed`. -/
theorem decryptChunk_short_malformed_witness :
    ([0, 0, 0] : List Nat).length < 13 ∧
      decryptChunk toyAEAD [1] [0, 0, 0] 0 = .error "Packed data too small" :=
  ⟨by decide, decryptChunk_short_malformed toyAEAD [1] [0, 0, 0] 0 (by decide)⟩

end DCS

namespace DCS

/-! ## GatewayFetcher (src/frontend/src/utils/ipfsGateway.ts)

`fetchFromIPFSGateway` walks an ordered candidate endpoint list; each
attempt either yields the payload, an HTTP error response, or throws
(network failure, CORS, or the per-attempt timeout firing as an
AbortError).  The network is a parameter: the model takes the list of
(url, outcome) pairs in candidate order.  JS string handling
(`toLowerCase`, `includes`) is embedded over `List Char`. -/

/-- ASCII lowercase of one character (JS `toLowerCase` on ASCII data). -/
def lowerChar (c : Char) : Char :=
  if 'A' ≤ c ∧ c ≤ 'Z' then Char.ofNat (c.toNat + 32) else c

/-- JS `s.toLowerCase()` as a character list. -/
def lowerStr (s : String) : List Char := s.toList.map lowerChar

/-- Character-list prefix test. -/
def startsWithL : List Char → List Char → Bool
  | [], _ => true
  | _ :: _, [] => false
  | p :: ps, t :: ts => p = t && startsWithL ps ts

/-- JS `text.includes(pat)`. -/
def hasInfix (text : List Char) (pat : List Char) : Bool :=
  match text with
  | [] => pat.isEmpty
  | _ :: ts => startsWithL pat text || hasInfix ts pat

/-- The JS error value `classifyError` inspects: `name`, `message`, and
the optional `status` attached to HTTP errors. -/
structure JsError where
  name : String
  message : String
  status : Option Nat
  deriving Repr, DecidableEq

/-- Classification record returned by `classifyError`. -/
structure GWClassification where
  type : String
  message : String
  retryable : Bool
  deriving Repr, DecidableEq

/-- `classifyError(error)` of ipfsGateway.ts (lines 93-149): the cascade
of TLS, network, timeout, CORS, HTTP and unknown error classes.  JS
truthiness of `error?.status` makes a present status of 0 fall through,
and `error?.status >= 500` is false when status is absent. -/
def classifyError (e : JsError) : GWClassification :=
  let msg := lowerStr e.message
  if hasInfix msg "ssl".toList || hasInfix msg "tls".toList ||
      hasInfix msg "certificate".toList || hasInfix msg "err_ssl".toList ||
      hasInfix e.name.toList "SSL".toList || hasInfix e.name.toList "TLS".toList then
    { type := "TLS_ERROR",
      message := "TLS/SSL handshake failed. This may be due to gateway certificate issues, corporate proxy, or browser TLS version.",
      retryable := true }
  else if hasInfix msg "network".toList || hasInfix msg "failed to fetch".toList ||
      hasInfix msg "err_network".toList || e.name = "TypeError" then
    { type := "NETWORK_ERROR",
      message := "Network request failed. Check your internet connection.",
      retryable := true }
  else if hasInfix msg "timeout".toList || hasInfix msg "aborted".toList ||
      e.name = "AbortError" then
    { type := "TIMEOUT",
      message := "Request timed out. The gateway may be slow or unreachable.",
      retryable := true }
  else if hasInfix msg "cors".toList || hasInfix msg "cross-origin".toList ||
      e.name = "TypeError" then
    { type := "CORS_ERROR",
      message := "CORS policy blocked the request. The gateway may not allow cross-origin requests.",
      retryable := false }
  else if (match e.status with | some s => s ≠ 0 | none => False) ||
      hasInfix msg "status".toList then
    { type := "HTTP_ERROR",
      message := "HTTP error: " ++
        (match e.status with
          | some s => if s ≠ 0 then toString s else "unknown status"
          | none => "unknown status"),
      retryable := decide (500 ≤ e.status.getD 0) || decide (e.status.getD 0 = 429) }
  else
    { type := "UNKNOWN_ERROR", message := e.message, retryable := true }

/-- One gateway attempt's observable outcome. -/
inductive GWOutcome where
  | success (payload : List Nat)
  | httpError (status : Nat) (statusText : String)
  | thrown (name : String) (message : String)
  deriving Repr, DecidableEq

/-- The error object built for a non-ok response (lines 221-224):
message `HTTP ${status}: ${statusText}` with the status attached. -/
def httpJsError (status : Nat) (statusText : String) : JsError :=
  { name := "Error", message := "HTTP " ++ toString status ++ ": " ++ statusText,
    status := some status }

/-- The error object seen in the catch branch (fetch threw). -/
def thrownJsError (name msg : String) : JsError :=
  { name := name, message := msg, status := none }

/-- One entry of the `errors` array: the attempted url with its
classification. -/
structure GWAttemptError where
  url : String
  classification : GWClassification
  deriving Repr, DecidableEq

/-- The `errors` entry recorded for a failed attempt. -/
def attemptError : String × GWOutcome → GWAttemptError
  | (url, .httpError s stext) =>
    { url := url, classification := classifyError (httpJsError s stext) }
  | (url, .thrown name msg) =>
    { url := url, classification := classifyError (thrownJsError name msg) }
  | (url, .success _) =>
    { url := url, classification := classifyError (thrownJsError "" "") }

/-- Does this outcome fail the attempt? -/
def outcomeFails : GWOutcome → Bool
  | .success _ => false
  | _ => true

/-- Does this outcome stop the whole gateway walk (lines 232-235): a
non-retryable classification on an HTTP response with a 4xx status? -/
def outcomeBreaks : GWOutcome → Bool
  | .httpError s stext =>
    decide (¬(classifyError (httpJsError s stext)).retryable = true ∧ 400 ≤ s ∧ s < 500)
  | _ => false

/-- The gateway loop of `fetchFromIPFSGateway` (lines 189-265) with its
`errors` accumulator: success returns the payload with its source url;
an HTTP error is recorded and breaks if non-retryable 4xx; a thrown
error is recorded and the loop continues; exhaustion surfaces the
aggregate error list (lines 267-288). -/
def fetchLoop : List (String × GWOutcome) → List GWAttemptError →
    Except (List GWAttemptError) (List Nat × String)
  | [], errs => .error errs
  | (url, o) :: rest, errs =>
    match o with
    | .success payload => .ok (payload, url)
    | .httpError s stext =>
      let c := classifyError (httpJsError s stext)
      let errs2 := errs ++ [{ url := url, classification := c }]
      if ¬c.retryable = true ∧ 400 ≤ s ∧ s < 500 then .error errs2
      else fetchLoop rest errs2
    | .thrown name msg =>
      fetchLoop rest
        (errs ++ [{ url := url, classification := classifyError (thrownJsError name msg) }])

/-- `fetchFromIPFSGateway` over a candidate list with its outcomes. -/
def fetchFromIPFSGateway (attempts : List (String × GWOutcome)) :
    Except (List GWAttemptError) (List Nat × String) :=
  fetchLoop attempts []

theorem fetchLoop_skip (pre : List (String × GWOutcome))
    (hpre : ∀ a ∈ pre, outcomeFails a.2 = true ∧ outcomeBreaks a.2 = false) :
    ∀ (l : List (String × GWOutcome)) (errs : List GWAttemptError),
      fetchLoop (pre ++ l) errs = fetchLoop l (errs ++ pre.map attemptError) := by
  induction pre with
  | nil => intro l errs; simp
  | cons a t ih =>
    intro l errs
    obtain ⟨url, o⟩ := a
    have ha := hpre (url, o) (by simp)
    cases o with
    | success payload => simp [outcomeFails] at ha
    | httpError s stext =>
      have hb : ¬(¬(classifyError (httpJsError s stext)).retryable = true ∧
          400 ≤ s ∧ s < 500) := by
        have := ha.2
        simp only [outcomeBreaks, decide_eq_false_iff_not] at this
        exact this
      show fetchLoop ((url, .httpError s stext) :: (t ++ l)) errs = _
      rw [fetchLoop]
      simp only [if_neg hb]
      rw [ih (fun a ha2 => hpre a (by simp [ha2])) l]
      simp [attemptError]
    | thrown name msg =>
      show fetchLoop ((url, .thrown name msg) :: (t ++ l)) errs = _
      rw [fetchLoop]
      rw [ih (fun a ha2 => hpre a (by simp [ha2])) l]
      simp [attemptError]

/-- C8: over any candidate endpoint list, with any prefix of attempts
that fail without a non-retryable 4xx response: (1) the first successful
attempt's payload is returned together with its source url, untried
endpoints untouched; (2) a non-retryable client (4xx) HTTP error stops
the walk immediately, surfacing exactly one recorded error per attempted
endpoint; (3) if every endpoint fails, the aggregate error carries
exactly one recorded error per attempted endpoint, in candidate order. -/
theorem fetchGateway_spec (pre : List (String × GWOutcome))
    (hpre : ∀ a ∈ pre, outcomeFails a.2 = true ∧ outcomeBreaks a.2 = false) :
    (∀ url payload rest,
      fetchFromIPFSGateway (pre ++ (url, .success payload) :: rest) =
        .ok (payload, url)) ∧
    (∀ url s stext rest, outcomeBreaks (.httpError s stext) = true →
      fetchFromIPFSGateway (pre ++ (url, .httpError s stext) :: rest) =
        .error (pre.map attemptError ++ [attemptError (url, .httpError s stext)])) ∧
    (fetchFromIPFSGateway pre = .error (pre.map attemptError)) := by
  refine ⟨?_, ?_, ?_⟩
  · intro url payload rest
    unfold fetchFromIPFSGateway
    rw [fetchLoop_skip pre hpre]
    rfl
  · intro url s stext rest hbrk
    unfold fetchFromIPFSGateway
    rw [fetchLoop_skip pre hpre]
    simp only [outcomeBreaks, decide_eq_true_eq] at hbrk
    show fetchLoop ((url, .httpError s stext) :: rest) (pre.map attemptError) = _
    rw [fetchLoop]
    simp only [if_pos hbrk]
    simp [attemptError]
  · unfold fetchFromIPFSGateway
    have := fetchLoop_skip pre hpre [] []
    simpa using this

/-- Witness for `fetchGateway_spec`: a timeout and a 503 are retried on
the next candidate; then a success returns, a 404 aborts, and
exhaustion aggregates both errors. -/
theorem fetchGateway_spec_witness :
    (fetchFromIPFSGateway
        [("https://a/ipfs/Qm1", .thrown "AbortError" "The operation was aborted"),
         ("https://b/ipfs/Qm1", .httpError 503 "Service Unavailable"),
         ("https://c/ipfs/Qm1", .success [1, 2, 3]),
         ("https://d/ipfs/Qm1", .httpError 500 "x")] =
      .ok ([1, 2, 3], "https://c/ipfs/Qm1")) ∧
    (fetchFromIPFSGateway
        [("https://a/ipfs/Qm1", .thrown "AbortError" "The operation was aborted"),
         ("https://b/ipfs/Qm1", .httpError 503 "Service Unavailable"),
         ("https://c/ipfs/Qm1", .httpError 404 "Not Found"),
         ("https://d/ipfs/Qm1", .success [9])] =
      .error
        [attemptError ("https://a/ipfs/Qm1", .thrown "AbortError" "The operation was aborted"),
         attemptError ("https://b/ipfs/Qm1", .httpError 503 "Service Unavailable"),
         attemptError ("https://c/ipfs/Qm1", .httpError 404 "Not Found")]) ∧
    (fetchFromIPFSGateway
        [("https://a/ipfs/Qm1", .thrown "AbortError" "The operation was aborted"),
         ("https://b/ipfs/Qm1", .httpError 503 "Service Unavailable")] =
      .error
        [attemptError ("https://a/ipfs/Qm1", .thrown "AbortError" "The operation was aborted"),
         attemptError ("https://b/ipfs/Qm1", .httpError 503 "Service Unavailable")]) := by
  have h := fetchGateway_spec
    [("https://a/ipfs/Qm1", .thrown "AbortError" "The operation was aborted"),
     ("https://b/ipfs/Qm1", .httpError 503 "Service Unavailable")] (by decide)
  exact ⟨h.1 "https://c/ipfs/Qm1" [1, 2, 3] [("https://d/ipfs/Qm1", .httpError 500 "x")],
    h.2.1 "https://c/ipfs/Qm1" 404 "Not Found" [("https://d/ipfs/Qm1", .success [9])]
      (by decide),
    h.2.2⟩

end DCS

namespace DCS

/-! ## Chunked download (src/frontend/src/services/chunkedDownload.ts)

The metadata JSON has already been fetched and parsed when the
validations at issue run, so the model takes the parsed object (with
optional fields, since JSON fields may be absent) and a chunk-fetch
oracle mapping a CID to the packed bytes the gateways return. -/

/-- Is `c` in the regex class `[a-zA-Z0-9]`? -/
def validCIDChar (c : Char) : Bool :=
  decide (('a' ≤ c ∧ c ≤ 'z') ∨ ('A' ≤ c ∧ c ≤ 'Z') ∨ ('0' ≤ c ∧ c ≤ '9'))

/-- `validateCID(cid)` of chunkedDownload.ts (lines 13-17): the regex
`^[bBQm][a-zA-Z0-9]+$`. -/
def validateCID (cid : String) : Bool :=
  match cid.toList with
  | [] => false
  | c :: rest =>
    decide (c = 'b' ∨ c = 'B' ∨ c = 'Q' ∨ c = 'm') && !rest.isEmpty &&
      rest.all validCIDChar

/-- `ChunkMetadata` entry of the manifest. -/
structure ChunkMetadata where
  index : Nat
  cid : String
  size : Nat
  deriving Repr, DecidableEq

/-- Parsed `FileMetadata` JSON; absent fields are `none`, and a chunks
array may contain holes (`null` entries), hence the inner `Option`. -/
structure FileMetadata where
  type : Option String
  filename : Option String
  mimeType : Option String
  fileSize : Option Nat
  chunkSize : Option Nat
  totalChunks : Option Nat
  chunks : Option (List (Option ChunkMetadata))
  deriving Repr, DecidableEq

/-- The per-chunk loop of `chunkedDownloadFile` (lines 95-122): at
position `i` the entry must be present, carry `index = i` and a valid
CID — only then is its chunk fetched and decrypted.  Returns the
decrypted chunks (or the first error) together with the list of chunk
CIDs actually fetched, in order. -/
def chunkLoop (A : AEAD) (key : List Nat) (fetch : String → List Nat) :
    List (Option ChunkMetadata) → Nat →
    Except String (List (List Nat)) × List String
  | [], _ => (.ok [], [])
  | none :: _, i => (.error ("Missing chunk metadata at index " ++ toString i), [])
  | some cm :: rest, i =>
    if cm.index ≠ i then
      (.error ("Chunk index mismatch: expected " ++ toString i ++ ", got " ++
        toString cm.index), [])
    else if ¬validateCID cm.cid then
      (.error ("Invalid chunk CID at index " ++ toString i ++ ": " ++ cm.cid), [])
    else
      match decryptChunk A key (fetch cm.cid) i with
      | .error e => (.error e, [cm.cid])
      | .ok p =>
        let r := chunkLoop A key fetch rest (i + 1)
        (r.1.map (fun ps => p :: ps), cm.cid :: r.2)

/-- `chunkedDownloadFile(metadataCid, aesKeyBase64, opts)` of
chunkedDownload.ts (lines 51-145): input validation, metadata structure
validation (type tag, chunks array, filename), then the chunk loop and
reassembly by concatenation.  Second component: chunk CIDs fetched. -/
def chunkedDownloadFile (A : AEAD) (key : List Nat) (fetch : String → List Nat)
    (metadataCid : String) (aesKeyBase64 : String) (meta : FileMetadata) :
    Except String (List Nat × String) × List String :=
  if ¬validateCID metadataCid then (.error "Invalid metadata CID format", [])
  else if aesKeyBase64 = "" then
    (.error "Invalid AES key: must be a base64 string", [])
  else if ¬(meta.type = some "dcs-chunked-file") then
    (.error "Invalid metadata type", [])
  else
    match meta.chunks with
    | none => (.error "Invalid metadata: missing or empty chunks array", [])
    | some [] => (.error "Invalid metadata: missing or empty chunks array", [])
    | some (e :: es) =>
      match meta.filename with
      | none => (.error "Invalid metadata: missing filename", [])
      | some fn =>
        let r := chunkLoop A key fetch (e :: es) 0
        (r.1.map (fun ps => (ps.flatten, fn)), r.2)

/-- Does the Except hold a value? -/
def exOk {α β : Type} : Except α β → Bool
  | .ok _ => true
  | .error _ => false

/-- The entries of a manifest prefix are well-formed and decryptable:
entry `j` (at running index `i + j`) is present, carries the matching
`index`, a valid CID, and its fetched chunk decrypts. -/
def goodPrefix (A : AEAD) (key : List Nat) (fetch : String → List Nat) :
    List ChunkMetadata → Nat → Prop
  | [], _ => True
  | c :: cs, i =>
    c.index = i ∧ validateCID c.cid = true ∧
      exOk (decryptChunk A key (fetch c.cid) i) = true ∧
      goodPrefix A key fetch cs (i + 1)

/-- A rejected manifest entry at running index `i`: absent, renumbered,
or with a malformed CID. -/
def badAt : Option ChunkMetadata → Nat → Prop
  | none, _ => True
  | some c, i => c.index ≠ i ∨ validateCID c.cid = false

theorem chunkLoop_bad (A : AEAD) (key : List Nat) (fetch : String → List Nat)
    (bad : Option ChunkMetadata) (rest : List (Option ChunkMetadata)) (i : Nat)
    (hb : badAt bad i) :
    ∃ msg, chunkLoop A key fetch (bad :: rest) i = (.error msg, []) := by
  cases bad with
  | none => exact ⟨_, rfl⟩
  | some cm =>
    cases hb with
    | inl hne =>
      refine ⟨"Chunk index mismatch: expected " ++ toString i ++ ", got " ++
        toString cm.index, ?_⟩
      show chunkLoop A key fetch (some cm :: rest) i = _
      rw [chunkLoop, if_pos hne]
    | inr hcid =>
      by_cases hne : cm.index ≠ i
      · refine ⟨"Chunk index mismatch: expected " ++ toString i ++ ", got " ++
          toString cm.index, ?_⟩
        show chunkLoop A key fetch (some cm :: rest) i = _
        rw [chunkLoop, if_pos hne]
      · refine ⟨"Invalid chunk CID at index " ++ toString i ++ ": " ++ cm.cid, ?_⟩
        show chunkLoop A key fetch (some cm :: rest) i = _
        rw [chunkLoop, if_neg hne, if_pos (by simp [hcid])]

theorem chunkLoop_error_skip (A : AEAD) (key : List Nat) (fetch : String → List Nat) :
    ∀ (good : List ChunkMetadata) (rest : List (Option ChunkMetadata)) (i0 : Nat)
      (msg : String) (tr : List String),
      goodPrefix A key fetch good i0 →
      chunkLoop A key fetch rest (i0 + good.length) = (.error msg, tr) →
      chunkLoop A key fetch (good.map some ++ rest) i0 =
        (.error msg, good.map (fun c => c.cid) ++ tr) := by
  intro good
  induction good with
  | nil =>
    intro rest i0 msg tr _ htail
    simpa using htail
  | cons c cs ih =>
    intro rest i0 msg tr hg htail
    obtain ⟨hidx, hcid, hok, hrest⟩ := hg
    have htail2 : chunkLoop A key fetch rest ((i0 + 1) + cs.length) = (.error msg, tr) := by
      have harith : (i0 + 1) + cs.length = i0 + (c :: cs).length := by simp; omega
      rw [harith]
      exact htail
    have hmain := ih rest (i0 + 1) msg tr hrest htail2
    show chunkLoop A key fetch (some c :: (cs.map some ++ rest)) i0 = _
    rw [chunkLoop, if_neg (by simp [hidx]), if_neg (by simp [hcid])]
    cases hd : decryptChunk A key (fetch c.cid) i0 with
    | error e =>
      rw [hd] at hok
      exact absurd hok (by simp [exOk])
    | ok p =>
      simp only [hmain]
      rfl

/-- C10: `chunkedDownloadFile` rejects, before fetching any further
chunk, a metadata object whose type tag is wrong (no chunk fetched), a
missing or empty chunks array (no chunk fetched), and a chunk entry at
position `i` that is absent, renumbered (`index ≠ i`) or has a
malformed CID — having fetched exactly the chunks of the valid prefix
before `i`; so a reordered or renumbered manifest is rejected rather
than reassembled. -/
theorem chunkedDownloadFile_validates (A : AEAD) (key : List Nat)
    (fetch : String → List Nat) (metadataCid aesKeyBase64 : String)
    (meta : FileMetadata) (hcid : validateCID metadataCid = true)
    (hkey : aesKeyBase64 ≠ "") :
    (meta.type ≠ some "dcs-chunked-file" →
      chunkedDownloadFile A key fetch metadataCid aesKeyBase64 meta =
        (.error "Invalid metadata type", [])) ∧
    ((meta.chunks = none ∨ meta.chunks = some []) →
      meta.type = some "dcs-chunked-file" →
      chunkedDownloadFile A key fetch metadataCid aesKeyBase64 meta =
        (.error "Invalid metadata: missing or empty chunks array", [])) ∧
    (∀ good bad rest fn,
      meta.type = some "dcs-chunked-file" →
      meta.filename = some fn →
      meta.chunks = some (good.map some ++ bad :: rest) →
      goodPrefix A key fetch good 0 →
      badAt bad good.length →
      ∃ msg, chunkedDownloadFile A key fetch metadataCid aesKeyBase64 meta =
        (.error msg, good.map (fun c => c.cid))) := by
  refine ⟨?_, ?_, ?_⟩
  · intro hty
    unfold chunkedDownloadFile
    rw [if_neg (by simp [hcid]), if_neg hkey, if_pos (by simp [hty])]
  · intro hch hty
    unfold chunkedDownloadFile
    rw [if_neg (by simp [hcid]), if_neg hkey, if_neg (by simp [hty])]
    cases hch with
    | inl h => rw [h]
    | inr h => rw [h]
  · intro good bad rest fn hty hfn hch hgp hbad
    obtain ⟨msg, hloop⟩ := chunkLoop_bad A key fetch bad rest good.length hbad
    have hskip := chunkLoop_error_skip A key fetch good (bad :: rest) 0 msg []
      hgp (by simpa using hloop)
    refine ⟨msg, ?_⟩
    obtain ⟨e, es, hes⟩ : ∃ e es, good.map some ++ bad :: rest = e :: es := by
      cases good with
      | nil => exact ⟨bad, rest, by simp⟩
      | cons g gs => exact ⟨some g, gs.map some ++ bad :: rest, by simp⟩
    unfold chunkedDownloadFile
    rw [if_neg (by simp [hcid]), if_neg hkey, if_neg (by simp [hty]), hch, hes, hfn]
    rw [hes] at hskip
    simp [hskip]
    rfl

end DCS

namespace DCS

/-- Chunk-fetch oracle for the download witness. -/
def wFetch : String → List Nat := fun cid =>
  if cid = "Qmaaa" then (encryptChunk toyAEAD [1] (List.replicate 12 0) [5, 6] 0).packed
  else []

/-- Metadata for the download witness: entry 1 is renumbered to index 2. -/
def wMeta : FileMetadata :=
  { type := some "dcs-chunked-file", filename := some "f.bin",
    mimeType := some "application/octet-stream", fileSize := some 4,
    chunkSize := some 2, totalChunks := some 2,
    chunks := some [some { index := 0, cid := "Qmaaa", size := 30 },
      some { index := 2, cid := "Qmbbb", size := 2 }] }

/-- Witness for `chunkedDownloadFile_validates`: the renumbered entry at
position 1 is rejected after fetching only chunk 0. -/
theorem chunkedDownloadFile_validates_witness :
    ∃ msg, chunkedDownloadFile toyAEAD [1] wFetch "QmMeta1" "key64" wMeta =
      (.error msg, ["Qmaaa"]) := by
  have h := chunkedDownloadFile_validates toyAEAD [1] wFetch "QmMeta1" "key64" wMeta
    (by decide) (by decide)
  have h3 := h.2.2 [{ index := 0, cid := "Qmaaa", size := 30 }]
    (some { index := 2, cid := "Qmbbb", size := 2 }) [] "f.bin" rfl rfl rfl
    ⟨rfl, by decide, by decide, trivial⟩ (Or.inl (by decide))
  simpa using h3

end DCS

namespace DCS

/-! ## Chunked upload session (src/frontend/src/services/chunkedUpload.ts)

The run of `chunkedUploadFile` is modelled deterministically: the
concurrency of the worker pool is dealt with separately (the pool model
below), and here the chunk loop visits indices in ascending order, as a
single worker would.  External effects are parameters: the idb-keyval
store content (`storage`), the proxy's CID answers, the owner-key
encryption (`encryptForRecipient` of utils/encryption.ts) and the
MetaMask `eth_decrypt` used on resume.  The run records the `trace` of
every `set(sessionKey, state)` snapshot, the chunk indices actually
uploaded (`processed`), and the in-memory raw AES key of the run. -/

/-- One entry of `UploadState.uploaded`: `{ cid, size }`. -/
structure ChunkUp where
  cid : String
  size : Nat
  deriving Repr, DecidableEq

/-- The `UploadState` interface of chunkedUpload.ts (lines 216-228).  It
has no field for the raw AES key: only `encryptedAesForOwner`. -/
structure UploadState where
  uploadId : String
  filename : String
  mimeType : String
  fileSize : Nat
  chunkSize : Nat
  totalChunks : Nat
  uploaded : List (Nat × ChunkUp)
  encryptedAesForOwner : Option String
  metadataCid : Option String
  registeredAt : Option Nat
  onChainTx : Option String
  deriving Repr, DecidableEq

/-- `state.uploaded[i]` lookup. -/
def recGet (m : List (Nat × ChunkUp)) (i : Nat) : Option ChunkUp :=
  (m.find? (fun p => p.1 = i)).map (fun p => p.2)

/-- `state.uploaded[i] = v` assignment. -/
def recSet (m : List (Nat × ChunkUp)) (i : Nat) (v : ChunkUp) : List (Nat × ChunkUp) :=
  (m.filter (fun p => ¬p.1 = i)) ++ [(i, v)]

/-- `generateUploadId(ownerAddr)` of chunkedUpload.ts (lines 64-66):
`upload_${ownerAddr}_${Date.now()}_${Math.random().toString(36).slice(2)}`.
The wall clock and the random suffix are parameters. -/
def generateUploadId (ownerAddr : String) (nowMs : Nat) (rand : String) : String :=
  "upload_" ++ ownerAddr ++ "_" ++ toString nowMs ++ "_" ++ rand

/-- External collaborators of one `chunkedUploadFile` run. -/
structure UploadEnv where
  encryptForRecipient : String → String → String
  ethDecrypt : String → String
  ownerPublicKey : String
  freshAesKeyBase64 : String
  chunkCid : Nat → String
  metadataCid : String
  txHash : String
  nowSec : Nat

/-- The options of `chunkedUploadFile` the model depends on. -/
structure UploadOpts where
  ownerAddr : String
  hasSigner : Bool
  hasContract : Bool
  autoRegister : Bool
  chunkSize : Nat

/-- The file handed to `chunkedUploadFile`. -/
structure FileInfo where
  name : String
  mimeType : String
  size : Nat

/-- Result of a run: final state, the successive `set(sessionKey, state)`
snapshots, the chunk indices uploaded by this run, and the run's
in-memory raw AES key. -/
structure UploadRun where
  finalState : UploadState
  trace : List UploadState
  processed : List Nat
  rawKey : String

/-- The chunk loop (lines 451-535): skip indices already recorded in
`state.uploaded`, otherwise encrypt, upload, record `{cid, size}` and
persist the session state (the write at line 493). -/
def uploadChunksGo (env : UploadEnv) (fileSize : Nat) :
    List Nat → UploadState → UploadState × List UploadState × List Nat
  | [], st => (st, [], [])
  | i :: is, st =>
    if (recGet st.uploaded i).isSome then uploadChunksGo env fileSize is st
    else
      let sz := min st.chunkSize (fileSize - i * st.chunkSize)
      let cUp : ChunkUp := { cid := env.chunkCid i, size := sz }
      let st2 := { st with uploaded := recSet st.uploaded i cUp }
      let r := uploadChunksGo env fileSize is st2
      (r.1, st2 :: r.2.1, i :: r.2.2)

/-- The tail of a run (lines 537-676): publish the metadata and persist
(line 562), then, when `autoRegister && signer && contractAddress &&
state.encryptedAesForOwner`, register on-chain and persist the receipt
(lines 637-639). -/
def stMeta (env : UploadEnv) (st : UploadState) : UploadState :=
  { st with metadataCid := some env.metadataCid }

def stReg (env : UploadEnv) (st : UploadState) : UploadState :=
  { st with registeredAt := some env.nowSec, onChainTx := some env.txHash }

def uploadFinish (env : UploadEnv) (opts : UploadOpts)
    (r : UploadState × List UploadState × List Nat) (raw : String) : UploadRun :=
  if opts.autoRegister && opts.hasSigner && opts.hasContract &&
      r.1.encryptedAesForOwner.isSome then
    { finalState := stReg env (stMeta env r.1),
      trace := r.2.1 ++ [stMeta env r.1, stReg env (stMeta env r.1)],
      processed := r.2.2, rawKey := raw }
  else
    { finalState := stMeta env r.1, trace := r.2.1 ++ [stMeta env r.1],
      processed := r.2.2, rawKey := raw }

/-- The session state after `get(sessionKey)` (lines 282-293): the
stored state if present, else a fresh one with no chunk uploaded and no
encrypted owner key. -/
def initState (storage : String → Option UploadState) (sessionKey : String)
    (file : FileInfo) (opts : UploadOpts) : UploadState :=
  (storage sessionKey).getD
    { uploadId := sessionKey, filename := file.name, mimeType := file.mimeType,
      fileSize := file.size, chunkSize := opts.chunkSize,
      totalChunks := (file.size + opts.chunkSize - 1) / opts.chunkSize,
      uploaded := [], encryptedAesForOwner := none, metadataCid := none,
      registeredAt := none, onChainTx := none }

/-- The body of `chunkedUploadFile` after the session state is loaded
(lines 295-676).  Resume branch (lines 300-313): the stored encrypted
key is decrypted via `eth_decrypt`; nothing is written.  Fresh branch
(lines 314-449): a fresh key is generated and, when a signer is
available, encrypted for the owner and persisted at once (line 426). -/
def numChunks (file : FileInfo) (opts : UploadOpts) : Nat :=
  (file.size + opts.chunkSize - 1) / opts.chunkSize

/-- The owner-encrypted key string computed at line 392:
`encryptForRecipient(publicKeyBase64, aesKeyBase64)`, serialized. -/
def encOwner (env : UploadEnv) : String :=
  env.encryptForRecipient env.ownerPublicKey env.freshAesKeyBase64

/-- The state written at line 426: the freshly generated AES key,
exported to base64 and encrypted for the owner, stored in
`encryptedAesForOwner`. -/
def stEnc (env : UploadEnv) (st : UploadState) : UploadState :=
  { st with encryptedAesForOwner := some (encOwner env) }

/-- Record one more persisted snapshot at the front of a run's trace. -/
def prependWrite (s : UploadState) (run : UploadRun) : UploadRun :=
  { run with trace := s :: run.trace }

def uploadMain (env : UploadEnv) (opts : UploadOpts) (file : FileInfo)
    (state0 : UploadState) : UploadRun :=
  match state0.encryptedAesForOwner with
  | some e =>
    uploadFinish env opts
      (uploadChunksGo env file.size (List.range (numChunks file opts)) state0)
      (env.ethDecrypt e)
  | none =>
    if opts.hasSigner then
      prependWrite (stEnc env state0)
        (uploadFinish env opts
          (uploadChunksGo env file.size (List.range (numChunks file opts))
            (stEnc env state0))
          env.freshAesKeyBase64)
    else
      uploadFinish env opts
        (uploadChunksGo env file.size (List.range (numChunks file opts)) state0)
        env.freshAesKeyBase64

/-- `chunkedUploadFile(file, opts)` of chunkedUpload.ts (lines 233-677)
for a given generated session key. -/
def chunkedUploadFile (env : UploadEnv) (storage : String → Option UploadState)
    (file : FileInfo) (opts : UploadOpts) (sessionKey : String) : UploadRun :=
  uploadMain env opts file (initState storage sessionKey file opts)

/-- The `encryptedAesForOwner` of the stored session, if any. -/
def loadedEnc (storage : String → Option UploadState) (sessionKey : String) :
    Option String :=
  match storage sessionKey with
  | some st => st.encryptedAesForOwner
  | none => none

theorem initState_enc (storage : String → Option UploadState) (sessionKey : String)
    (file : FileInfo) (opts : UploadOpts) :
    (initState storage sessionKey file opts).encryptedAesForOwner =
      loadedEnc storage sessionKey := by
  unfold initState loadedEnc
  cases storage sessionKey <;> rfl

theorem uploadChunksGo_enc (env : UploadEnv) (fileSize : Nat) :
    ∀ (is : List Nat) (st : UploadState),
      (uploadChunksGo env fileSize is st).1.encryptedAesForOwner =
        st.encryptedAesForOwner ∧
      ∀ s ∈ (uploadChunksGo env fileSize is st).2.1,
        s.encryptedAesForOwner = st.encryptedAesForOwner := by
  intro is
  induction is with
  | nil => intro st; exact ⟨rfl, by simp [uploadChunksGo]⟩
  | cons i t ih =>
    intro st
    by_cases hc : (recGet st.uploaded i).isSome
    · constructor
      · show (uploadChunksGo env fileSize (i :: t) st).1.encryptedAesForOwner = _
        rw [uploadChunksGo, if_pos hc]
        exact (ih st).1
      · intro s hs
        rw [uploadChunksGo, if_pos hc] at hs
        exact (ih st).2 s hs
    · have hgo : uploadChunksGo env fileSize (i :: t) st =
          (let sz := min st.chunkSize (fileSize - i * st.chunkSize)
           let cUp : ChunkUp := { cid := env.chunkCid i, size := sz }
           let st2 := { st with uploaded := recSet st.uploaded i cUp }
           let r := uploadChunksGo env fileSize t st2
           (r.1, st2 :: r.2.1, i :: r.2.2)) := by
        rw [uploadChunksGo, if_neg hc]
      constructor
      · rw [hgo]
        exact (ih _).1
      · intro s hs
        rw [hgo] at hs
        simp only [List.mem_cons] at hs
        cases hs with
        | inl h => rw [h]
        | inr h => exact Eq.trans ((ih _).2 s h) rfl

theorem stMeta_enc (env : UploadEnv) (st : UploadState) :
    (stMeta env st).encryptedAesForOwner = st.encryptedAesForOwner := rfl

theorem stReg_enc (env : UploadEnv) (st : UploadState) :
    (stReg env st).encryptedAesForOwner = st.encryptedAesForOwner := rfl

theorem uploadFinish_trace (env : UploadEnv) (opts : UploadOpts)
    (r : UploadState × List UploadState × List Nat) (raw : String) :
    ∀ s ∈ (uploadFinish env opts r raw).trace,
      s ∈ r.2.1 ∨ s.encryptedAesForOwner = r.1.encryptedAesForOwner := by
  intro s hs
  unfold uploadFinish at hs
  split at hs <;> simp only [List.mem_append, List.mem_cons,
    List.not_mem_nil, or_false] at hs
  · rcases hs with h | h | h
    · exact Or.inl h
    · exact Or.inr (by rw [h, stMeta_enc])
    · exact Or.inr (by rw [h, stReg_enc, stMeta_enc])
  · rcases hs with h | h
    · exact Or.inl h
    · exact Or.inr (by rw [h, stMeta_enc])

theorem uploadFinish_rawKey (env : UploadEnv) (opts : UploadOpts)
    (r : UploadState × List UploadState × List Nat) (raw : String) :
    (uploadFinish env opts r raw).rawKey = raw := by
  unfold uploadFinish
  split <;> rfl

end DCS

namespace DCS

/-- The single value `encryptedAesForOwner` carries in every snapshot of
one run, by branch: the loaded ciphertext on resume, the fresh owner
encapsulation when a signer is present, `none` otherwise. -/
def runEnc (env : UploadEnv) (opts : UploadOpts) (e0 : Option String) : Option String :=
  match e0 with
  | some e => some e
  | none => if opts.hasSigner then some (encOwner env) else none

theorem uploadMain_trace_enc (env : UploadEnv) (opts : UploadOpts) (file : FileInfo)
    (state0 : UploadState) :
    ∀ s ∈ (uploadMain env opts file state0).trace,
      s.encryptedAesForOwner = runEnc env opts state0.encryptedAesForOwner := by
  intro s hs
  cases hE : state0.encryptedAesForOwner with
  | some e =>
    have hrun : uploadMain env opts file state0 =
        uploadFinish env opts
          (uploadChunksGo env file.size (List.range (numChunks file opts)) state0)
          (env.ethDecrypt e) := by
      unfold uploadMain
      rw [hE]
    rw [hrun] at hs
    show s.encryptedAesForOwner = some e
    rcases uploadFinish_trace env opts _ _ s hs with h | h
    · rw [(uploadChunksGo_enc env file.size _ state0).2 s h, hE]
    · rw [h, (uploadChunksGo_enc env file.size _ state0).1, hE]
  | none =>
    by_cases hsgn : opts.hasSigner = true
    · have hrun : uploadMain env opts file state0 =
          prependWrite (stEnc env state0)
            (uploadFinish env opts
              (uploadChunksGo env file.size (List.range (numChunks file opts))
                (stEnc env state0))
              env.freshAesKeyBase64) := by
        unfold uploadMain
        rw [hE, if_pos hsgn]
      rw [hrun] at hs
      show s.encryptedAesForOwner = runEnc env opts none
      have hre : runEnc env opts none = some (encOwner env) := by
        unfold runEnc
        rw [if_pos hsgn]
      rw [hre]
      simp only [prependWrite, List.mem_cons] at hs
      rcases hs with h | hs2
    
      · rw [h]
        rfl
      · rcases uploadFinish_trace env opts _ _ s hs2 with h | h
        · rw [(uploadChunksGo_enc env file.size _ (stEnc env state0)).2 s h]
          rfl
        · rw [h, (uploadChunksGo_enc env file.size _ (stEnc env state0)).1]
          rfl
    · have hrun : uploadMain env opts file state0 =
          uploadFinish env opts
            (uploadChunksGo env file.size (List.range (numChunks file opts)) state0)
            env.freshAesKeyBase64 := by
        unfold uploadMain
        rw [hE, if_neg hsgn]
      rw [hrun] at hs
      show s.encryptedAesForOwner = runEnc env opts none
      have hre : runEnc env opts none = none := by
        unfold runEnc
        rw [if_neg hsgn]
      rw [hre]
      rcases uploadFinish_trace env opts _ _ s hs with h | h
      · rw [(uploadChunksGo_enc env file.size _ state0).2 s h, hE]
      · rw [h, (uploadChunksGo_enc env file.size _ state0).1, hE]

theorem uploadMain_rawKey (env : UploadEnv) (opts : UploadOpts) (file : FileInfo)
    (state0 : UploadState) :
    (uploadMain env opts file state0).rawKey =
      (match state0.encryptedAesForOwner with
        | some e => env.ethDecrypt e
        | none => env.freshAesKeyBase64) := by
  cases hE : state0.encryptedAesForOwner with
  | some e =>
    unfold uploadMain
    rw [hE]
    exact uploadFinish_rawKey env opts _ _
  | none =>
    unfold uploadMain
    rw [hE]
    by_cases hsgn : opts.hasSigner = true
    · rw [if_pos hsgn]
      show (uploadFinish env opts _ env.freshAesKeyBase64).rawKey = _
      exact uploadFinish_rawKey env opts _ _
    · rw [if_neg hsgn]
      exact uploadFinish_rawKey env opts _ _

/-- C1: every session snapshot persisted by `chunkedUploadFile` (every
`set(sessionKey, state)` argument, on every execution path) carries in
`encryptedAesForOwner` only the loaded ciphertext or the fresh owner
encapsulation — never the raw AES key's base64 export; the `UploadState`
record has no other key-bearing field. -/
theorem chunkedUploadFile_no_raw_key (env : UploadEnv)
    (storage : String → Option UploadState) (file : FileInfo) (opts : UploadOpts)
    (sessionKey : String)
    (hfresh : encOwner env ≠ env.freshAesKeyBase64)
    (hdec : ∀ e, env.ethDecrypt e ≠ e) :
    ∀ s ∈ (chunkedUploadFile env storage file opts sessionKey).trace,
      (s.encryptedAesForOwner = loadedEnc storage sessionKey ∨
        s.encryptedAesForOwner = none ∨
        s.encryptedAesForOwner = some (encOwner env)) ∧
      s.encryptedAesForOwner ≠
        some (chunkedUploadFile env storage file opts sessionKey).rawKey := by
  intro s hs
  unfold chunkedUploadFile at hs ⊢
  have hE := initState_enc storage sessionKey file opts
  have htr := uploadMain_trace_enc env opts file (initState storage sessionKey file opts) s hs
  rw [uploadMain_rawKey, hE]
  rw [hE] at htr
  cases hload : loadedEnc storage sessionKey with
  | some e =>
    rw [hload] at htr
    constructor
    · exact Or.inl (by rw [htr]; rfl)
    · rw [htr]
      show some e ≠ some (env.ethDecrypt e)
      intro hc
      exact hdec e (Option.some.inj hc).symm
  | none =>
    rw [hload] at htr
    by_cases hsgn : opts.hasSigner = true
    · have hre : runEnc env opts none = some (encOwner env) := by
        unfold runEnc
        rw [if_pos hsgn]
      rw [hre] at htr
      constructor
      · exact Or.inr (Or.inr htr)
      · rw [htr]
        show some (encOwner env) ≠ some env.freshAesKeyBase64
        intro hc
        exact hfresh (Option.some.inj hc)
    · have hre : runEnc env opts none = none := by
        unfold runEnc
        rw [if_neg hsgn]
      rw [hre] at htr
      constructor
      · exact Or.inr (Or.inl htr)
      · rw [htr]
        simp

end DCS

namespace DCS

/-- Concrete upload environment for witnesses. -/
def wUpEnv : UploadEnv :=
  { encryptForRecipient := fun _ s => "enc:" ++ s, ethDecrypt := fun e => "dec:" ++ e,
    ownerPublicKey := "PK", freshAesKeyBase64 := "FRESHKEY64",
    chunkCid := fun i => "Qmchunk" ++ toString i, metadataCid := "Qmmeta",
    txHash := "0xtx", nowSec := 1 }

/-- A 10 MB file uploaded in 2 MB chunks (the spec's concrete scenario). -/
def wUpFile : FileInfo :=
  { name := "big.bin", mimeType := "application/octet-stream", size := 10485760 }

def wUpOpts : UploadOpts :=
  { ownerAddr := "0xowner", hasSigner := true, hasContract := true,
    autoRegister := true, chunkSize := 2097152 }

/-- Witness for `chunkedUploadFile_no_raw_key` on a fresh session. -/
theorem chunkedUploadFile_no_raw_key_witness :
    (encOwner wUpEnv ≠ wUpEnv.freshAesKeyBase64) ∧
    ∀ s ∈ (chunkedUploadFile wUpEnv (fun _ => none) wUpFile wUpOpts "sess1").trace,
      (s.encryptedAesForOwner = loadedEnc (fun _ => none) "sess1" ∨
        s.encryptedAesForOwner = none ∨
        s.encryptedAesForOwner = some (encOwner wUpEnv)) ∧
      s.encryptedAesForOwner ≠
        some (chunkedUploadFile wUpEnv (fun _ => none) wUpFile wUpOpts "sess1").rawKey := by
  refine ⟨by decide, ?_⟩
  refine chunkedUploadFile_no_raw_key wUpEnv (fun _ => none) wUpFile wUpOpts "sess1"
    (by decide) ?_
  intro e h
  have h' : "dec:" ++ e = e := h
  have h2 : ("dec:" ++ e).length = e.length := by rw [h']
  rw [String.length_append] at h2
  have h3 : ("dec:" : String).length = 4 := rfl
  rw [h3] at h2
  omega

/-- The interrupted prior session of the spec's concrete scenario:
chunks 0-2 of 5 durably recorded under the old session key. -/
def wPriorState : UploadState :=
  { uploadId := generateUploadId "0xowner" 1000 "abc", filename := "big.bin",
    mimeType := "application/octet-stream", fileSize := 10485760,
    chunkSize := 2097152, totalChunks := 5,
    uploaded := [(0, { cid := "Qmc0", size := 2097152 }),
      (1, { cid := "Qmc1", size := 2097152 }), (2, { cid := "Qmc2", size := 2097152 })],
    encryptedAesForOwner := some "enc1", metadataCid := none, registeredAt := none,
    onChainTx := none }

/-- The idb-keyval store holding the interrupted session. -/
def wPriorStorage : String → Option UploadState :=
  fun k => if k = generateUploadId "0xowner" 1000 "abc" then some wPriorState else none

/-- C4 (code bug): a second `chunkedUploadFile` call on the same file
generates a fresh session id (`Date.now()` and `Math.random()` differ),
so `get(sessionKey)` misses the stored session whose chunks 0-2 are
recorded, and the run uploads all five chunk indices instead of only
the missing `[3, 4]` the resume contract requires. -/
theorem chunkedUploadFile_fresh_session_reuploads :
    (wPriorState.uploaded.map (fun p => p.1) = [0, 1, 2]) ∧
    generateUploadId "0xowner" 2000 "def" ≠ generateUploadId "0xowner" 1000 "abc" ∧
    (chunkedUploadFile wUpEnv wPriorStorage wUpFile wUpOpts
      (generateUploadId "0xowner" 2000 "def")).processed = [0, 1, 2, 3, 4] ∧
    (chunkedUploadFile wUpEnv wPriorStorage wUpFile wUpOpts
      (generateUploadId "0xowner" 2000 "def")).processed ≠ [3, 4] := by
  refine ⟨by decide, by decide, ?_, ?_⟩ <;> decide

end DCS

namespace DCS

/-! ## WorkerPool (src/frontend/src/services/chunkedUpload.ts, lines 502-535)

The pool spawns `C` workers.  A worker's loop alternates two kinds of
steps, and JavaScript's run-to-completion semantics makes everything
between two `await`s one indivisible step:

* claim (lines 507-524, synchronous — no `await` between the check of
  `state.uploaded[nextIndex]` and `nextIndex++`): scan the shared
  `nextIndex` forward over `[0, totalChunks)`, skipping indices already
  in `state.uploaded`, and claim the first unclaimed one; if the scan
  exhausts, the worker returns;
* finish (the tail of `processChunk`, lines 483-499): after the `await`s
  of encryption and upload, record the claimed index in
  `state.uploaded` and go back to claiming.

A schedule (any interleaving) is a list of worker ids; each entry lets
that worker take its next step. -/

/-- What a worker is doing: between claims, processing chunk `i`, or
returned. -/
inductive WStatus where
  | idle
  | busy (i : Nat)
  | done
  deriving Repr, DecidableEq

/-- The shared state of one pool run: the shared cursor `nextIndex`, the
completion map `state.uploaded` (as the set of recorded indices), the
order in which completions were recorded, and each worker's status. -/
structure PoolState (C : Nat) where
  next : Nat
  uploaded : Finset Nat
  log : List Nat
  workers : Fin C → WStatus

/-- The claim scan (lines 511-520) with explicit fuel; fuel `T - next`
makes it the exact `while (nextIndex < totalChunks)` loop. -/
def claimLoop (u : Finset Nat) (T : Nat) : Nat → Nat → Option Nat × Nat
  | 0, next => (none, next)
  | fuel + 1, next =>
    if next < T then
      if next ∈ u then claimLoop u T fuel (next + 1)
      else (some next, next + 1)
    else (none, next)

/-- One synchronous execution of the claim scan from the current shared
cursor: the claimed index (if any) and the new cursor value. -/
def claimFrom (u : Finset Nat) (T next : Nat) : Option Nat × Nat :=
  claimLoop u T (T - next) next

/-- Point update of the worker-status map. -/
def setWorker {C : Nat} (ws : Fin C → WStatus) (w : Fin C) (s : WStatus) :
    Fin C → WStatus :=
  fun w2 => if w2 = w then s else ws w2

/-- One step of worker `w`: a done worker does nothing; an idle worker
runs the claim scan and becomes busy on the claimed index or returns;
a busy worker finishes its chunk — skipping the record if the index has
meanwhile been recorded (the double-check at line 464), otherwise
recording it (lines 491-493). -/
def step (T : Nat) {C : Nat} (st : PoolState C) (w : Fin C) : PoolState C :=
  match st.workers w with
  | .done => st
  | .idle =>
    match claimFrom st.uploaded T st.next with
    | (some i, n') => { st with next := n', workers := setWorker st.workers w (.busy i) }
    | (none, n') => { st with next := n', workers := setWorker st.workers w .done }
  | .busy i =>
    if i ∈ st.uploaded then { st with workers := setWorker st.workers w .idle }
    else
      { st with uploaded := insert i st.uploaded, log := st.log ++ [i], workers := setWorker st.workers w .idle }

/-- Run a schedule (an arbitrary interleaving of worker steps). -/
def run (T : Nat) {C : Nat} (st : PoolState C) : List (Fin C) → PoolState C
  | [] => st
  | w :: ws => run T (step T st w) ws

/-- The pool's starting state over an initial completion map `S0`
(empty for a fresh upload, the already-recorded indices on a resume). -/
def initPool (C T : Nat) (S0 : Finset Nat) : PoolState C :=
  { next := 0, uploaded := S0, log := [], workers := fun _ => .idle }

/-- All workers have returned: `Promise.all(workers)` has resolved. -/
def terminal {C : Nat} (st : PoolState C) : Prop :=
  ∀ w, st.workers w = .done

instance {C : Nat} (st : PoolState C) : Decidable (terminal st) := by
  unfold terminal
  infer_instance

theorem claimLoop_some (u : Finset Nat) (T : Nat) :
    ∀ (fuel next i n' : Nat), T - next ≤ fuel →
      claimLoop u T fuel next = (some i, n') →
      next ≤ i ∧ i < T ∧ i ∉ u ∧ n' = i + 1 ∧ ∀ j, next ≤ j → j < i → j ∈ u := by
  intro fuel
  induction fuel with
  | zero =>
    intro next i n' _ h
    exact absurd h (by simp [claimLoop])
  | succ f ih =>
    intro next i n' hf h
    rw [claimLoop] at h
    by_cases h1 : next < T
    · rw [if_pos h1] at h
      by_cases h2 : next ∈ u
      · rw [if_pos h2] at h
        obtain ⟨ha, hb, hc, hd, he⟩ := ih (next + 1) i n' (by omega) h
        refine ⟨by omega, hb, hc, hd, ?_⟩
        intro j hj1 hj2
        by_cases hj : j = next
        · rw [hj]; exact h2
        · exact he j (by omega) hj2
      · rw [if_neg h2] at h
        simp only [Prod.mk.injEq, Option.some.injEq] at h
        refine ⟨by omega, by omega, by rw [← h.1]; exact h2, by omega, ?_⟩
        intro j hj1 hj2
        omega
    · rw [if_neg h1] at h
      exact absurd h (by simp)

theorem claimLoop_none (u : Finset Nat) (T : Nat) :
    ∀ (fuel next n' : Nat), T - next ≤ fuel → next ≤ T →
      claimLoop u T fuel next = (none, n') →
      n' = T ∧ ∀ j, next ≤ j → j < T → j ∈ u := by
  intro fuel
  induction fuel with
  | zero =>
    intro next n' hf hle h
    rw [claimLoop] at h
    simp only [Prod.mk.injEq] at h
    refine ⟨by omega, ?_⟩
    intro j hj1 hj2
    omega
  | succ f ih =>
    intro next n' hf hle h
    rw [claimLoop] at h
    by_cases h1 : next < T
    · rw [if_pos h1] at h
      by_cases h2 : next ∈ u
      · rw [if_pos h2] at h
        obtain ⟨ha, hb⟩ := ih (next + 1) n' (by omega) (by omega) h
        refine ⟨ha, ?_⟩
        intro j hj1 hj2
        by_cases hj : j = next
        · rw [hj]; exact h2
        · exact hb j (by omega) hj2
      · rw [if_neg h2] at h
        exact absurd h (by simp)
    · rw [if_neg h1] at h
      simp only [Prod.mk.injEq] at h
      refine ⟨by omega, ?_⟩
      intro j hj1 hj2
      omega

theorem claimFrom_some (u : Finset Nat) (T next i n' : Nat)
    (h : claimFrom u T next = (some i, n')) :
    next ≤ i ∧ i < T ∧ i ∉ u ∧ n' = i + 1 ∧ ∀ j, next ≤ j → j < i → j ∈ u :=
  claimLoop_some u T (T - next) next i n' (by omega) h

theorem claimFrom_none (u : Finset Nat) (T next n' : Nat) (hle : next ≤ T)
    (h : claimFrom u T next = (none, n')) :
    n' = T ∧ ∀ j, next ≤ j → j < T → j ∈ u :=
  claimLoop_none u T (T - next) next n' (by omega) hle h

end DCS

namespace DCS

theorem setWorker_cases {C : Nat} (ws : Fin C → WStatus) (w w2 : Fin C)
    (s t : WStatus) (h : setWorker ws w s w2 = t) :
    (w2 = w ∧ s = t) ∨ (w2 ≠ w ∧ ws w2 = t) := by
  unfold setWorker at h
  by_cases hw : w2 = w
  · rw [if_pos hw] at h
    exact Or.inl ⟨hw, h⟩
  · rw [if_neg hw] at h
    exact Or.inr ⟨hw, h⟩

theorem setWorker_self {C : Nat} (ws : Fin C → WStatus) (w : Fin C) (s : WStatus) :
    setWorker ws w s w = s := by
  simp [setWorker]

theorem setWorker_other {C : Nat} (ws : Fin C → WStatus) (w w2 : Fin C) (s : WStatus)
    (h : w2 ≠ w) : setWorker ws w s w2 = ws w2 := by
  simp [setWorker, h]

/-- The run invariant of the pool: the cursor stays in `[0, T]`; the
completion map is exactly the initial one plus the recorded log; the
log is duplicate-free, inside `[0, T)` and disjoint from the initial
map; every busy index is unclaimed-but-passed and held by exactly one
worker; every index below the cursor is recorded or in flight; and a
returned worker means the cursor is exhausted. -/
structure PoolInv (T : Nat) {C : Nat} (S0 : Finset Nat) (st : PoolState C) : Prop where
  next_le : st.next ≤ T
  up_eq : st.uploaded = S0 ∪ st.log.toFinset
  log_nodup : st.log.Nodup
  log_notS0 : ∀ i ∈ st.log, i ∉ S0
  log_lt : ∀ i ∈ st.log, i < T
  busy_lt : ∀ w i, st.workers w = .busy i → i < T
  busy_not_up : ∀ w i, st.workers w = .busy i → i ∉ st.uploaded
  busy_lt_next : ∀ w i, st.workers w = .busy i → i < st.next
  busy_uniq : ∀ w w2 i, st.workers w = .busy i → st.workers w2 = .busy i → w = w2
  below_next : ∀ i, i < st.next → i ∈ st.uploaded ∨ ∃ w, st.workers w = .busy i
  done_next : ∀ w, st.workers w = .done → st.next = T

theorem initPool_inv (C T : Nat) (S0 : Finset Nat) : PoolInv T S0 (initPool C T S0) := by
  refine ⟨by simp [initPool], by simp [initPool], by simp [initPool],
    by simp [initPool], by simp [initPool], ?_, ?_, ?_, ?_, ?_, ?_⟩
  · intro w i h
    exact absurd h (by simp [initPool])
  · intro w i h
    exact absurd h (by simp [initPool])
  · intro w i h
    exact absurd h (by simp [initPool])
  · intro w w2 i h
    exact absurd h (by simp [initPool])
  · intro i h
    exact absurd h (by simp [initPool])
  · intro w h
    exact absurd h (by simp [initPool])

theorem step_inv (T : Nat) {C : Nat} (S0 : Finset Nat) (st : PoolState C)
    (hI : PoolInv T S0 st) (w : Fin C) : PoolInv T S0 (step T st w) := by
  cases hw : st.workers w with
  | done =>
    have hstep : step T st w = st := by
      unfold step
      rw [hw]
    rw [hstep]
    exact hI
  | idle =>
    cases hcl : claimFrom st.uploaded T st.next with
    | mk o n' =>
      cases o with
      | some i =>
        have hstep : step T st w =
            { st with next := n', workers := setWorker st.workers w (.busy i) } := by
          unfold step
          rw [hw, hcl]
        obtain ⟨hni, hiT, hiu, hn1, hskip⟩ := claimFrom_some st.uploaded T st.next i n' hcl
        rw [hstep]
        refine ⟨by show n' ≤ T; omega, hI.up_eq, hI.log_nodup, hI.log_notS0, hI.log_lt,
          ?_, ?_, ?_, ?_, ?_, ?_⟩
        · intro w2 j h2
          rcases setWorker_cases _ _ _ _ _ h2 with ⟨_, hb⟩ | ⟨_, hb⟩
          · cases hb
            exact hiT
          · exact hI.busy_lt w2 j hb
        · intro w2 j h2
          rcases setWorker_cases _ _ _ _ _ h2 with ⟨_, hb⟩ | ⟨_, hb⟩
          · cases hb
            exact hiu
          · exact hI.busy_not_up w2 j hb
        · intro w2 j h2
          show j < n'
          rcases setWorker_cases _ _ _ _ _ h2 with ⟨_, hb⟩ | ⟨_, hb⟩
          · cases hb
            omega
          · have := hI.busy_lt_next w2 j hb
            have := hI.next_le
            omega
        · intro w1 w2 j h1 h2
          rcases setWorker_cases _ _ _ _ _ h1 with ⟨he1, hb1⟩ | ⟨he1, hb1⟩ <;>
            rcases setWorker_cases _ _ _ _ _ h2 with ⟨he2, hb2⟩ | ⟨he2, hb2⟩
          · rw [he1, he2]
          · cases hb1
            have := hI.busy_lt_next w2 i hb2
            omega
          · cases hb2
            have := hI.busy_lt_next w1 i hb1
            omega
          · exact hI.busy_uniq w1 w2 j hb1 hb2
        · intro j hj
          show j ∈ st.uploaded ∨ _
          by_cases hjn : j < st.next
          · rcases hI.below_next j hjn with h | ⟨w2, h⟩
            · exact Or.inl h
            · have hne : w2 ≠ w := by
                intro he
                rw [he, hw] at h
                cases h
              exact Or.inr ⟨w2, (setWorker_other st.workers w w2 _ hne).trans h⟩
          · by_cases hji : j = i
            · refine Or.inr ⟨w, ?_⟩
              show setWorker st.workers w (WStatus.busy i) w = WStatus.busy j
              rw [hji]
              exact setWorker_self st.workers w _
            · have hj2 : j < n' := hj
              have hjlt : j < i := by omega
              exact Or.inl (hskip j (by omega) hjlt)
        · intro w2 h2
          rcases setWorker_cases _ _ _ _ _ h2 with ⟨_, hb⟩ | ⟨_, hb⟩
          · cases hb
          · have := hI.done_next w2 hb
            omega
      | none =>
        have hstep : step T st w =
            { st with next := n', workers := setWorker st.workers w .done } := by
          unfold step
          rw [hw, hcl]
        obtain ⟨hn1, hall⟩ := claimFrom_none st.uploaded T st.next n' hI.next_le hcl
        rw [hstep]
        refine ⟨by show n' ≤ T; omega, hI.up_eq, hI.log_nodup, hI.log_notS0, hI.log_lt,
          ?_, ?_, ?_, ?_, ?_, ?_⟩
        · intro w2 j h2
          rcases setWorker_cases _ _ _ _ _ h2 with ⟨_, hb⟩ | ⟨_, hb⟩
          · cases hb
          · exact hI.busy_lt w2 j hb
        · intro w2 j h2
          rcases setWorker_cases _ _ _ _ _ h2 with ⟨_, hb⟩ | ⟨_, hb⟩
          · cases hb
          · exact hI.busy_not_up w2 j hb
        · intro w2 j h2
          show j < n'
          rcases setWorker_cases _ _ _ _ _ h2 with ⟨_, hb⟩ | ⟨_, hb⟩
          · cases hb
          · have := hI.busy_lt_next w2 j hb
            have := hI.next_le
            omega
        · intro w1 w2 j h1 h2
          rcases setWorker_cases _ _ _ _ _ h1 with ⟨he1, hb1⟩ | ⟨he1, hb1⟩ <;>
            rcases setWorker_cases _ _ _ _ _ h2 with ⟨he2, hb2⟩ | ⟨he2, hb2⟩
          · rw [he1, he2]
          · cases hb1
          · cases hb2
          · exact hI.busy_uniq w1 w2 j hb1 hb2
        · intro j hj
          show j ∈ st.uploaded ∨ _
          by_cases hjn : j < st.next
          · rcases hI.below_next j hjn with h | ⟨w2, h⟩
            · exact Or.inl h
            · have hne : w2 ≠ w := by
                intro he
                rw [he, hw] at h
                cases h
              exact Or.inr ⟨w2, (setWorker_other st.workers w w2 _ hne).trans h⟩
          · have hj2 : j < n' := hj
            have hjT : j < T := by omega
            exact Or.inl (hall j (by omega) hjT)
        · intro w2 _
          show n' = T
          omega
  | busy i =>
    have hiu := hI.busy_not_up w i hw
    have hiT := hI.busy_lt w i hw
    have hstep : step T st w =
        { st with uploaded := insert i st.uploaded, log := st.log ++ [i], workers := setWorker st.workers w .idle } := by
      unfold step
      rw [hw]
      exact if_neg hiu
    have hiLog : i ∉ st.log := by
      intro hmem
      exact hiu (by rw [hI.up_eq]; exact Finset.mem_union_right _ (List.mem_toFinset.mpr hmem))
    have hiS0 : i ∉ S0 := by
      intro hmem
      exact hiu (by rw [hI.up_eq]; exact Finset.mem_union_left _ hmem)
    rw [hstep]
    refine ⟨hI.next_le, ?_, ?_, ?_, ?_, ?_, ?_, ?_, ?_, ?_, ?_⟩
    · show insert i st.uploaded = S0 ∪ (st.log ++ [i]).toFinset
      rw [hI.up_eq]
      ext j
      simp [List.mem_toFinset]
      tauto
    · show (st.log ++ [i]).Nodup
      rw [List.nodup_append]
      refine ⟨hI.log_nodup, List.nodup_singleton i, ?_⟩
      intro a ha hb
      rw [List.mem_singleton] at hb
      rw [hb] at ha
      exact hiLog ha
    · intro j hj
      rw [List.mem_append, List.mem_singleton] at hj
      rcases hj with h | h
      · exact hI.log_notS0 j h
      · rw [h]
        exact hiS0
    · intro j hj
      rw [List.mem_append, List.mem_singleton] at hj
      rcases hj with h | h
      · exact hI.log_lt j h
      · rw [h]
        exact hiT
    · intro w2 j h2
      rcases setWorker_cases _ _ _ _ _ h2 with ⟨_, hb⟩ | ⟨_, hb⟩
      · cases hb
      · exact hI.busy_lt w2 j hb
    · intro w2 j h2
      rcases setWorker_cases _ _ _ _ _ h2 with ⟨_, hb⟩ | ⟨hne, hb⟩
      · cases hb
      · have hji : j ≠ i := by
          intro he
          rw [he] at hb
          exact hne (hI.busy_uniq w2 w i hb hw)
        have := hI.busy_not_up w2 j hb
        show j ∉ insert i st.uploaded
        rw [Finset.mem_insert]
        intro hc
        rcases hc with hc | hc
        · exact hji hc
        · exact this hc
    · intro w2 j h2
      rcases setWorker_cases _ _ _ _ _ h2 with ⟨_, hb⟩ | ⟨_, hb⟩
      · cases hb
      · exact hI.busy_lt_next w2 j hb
    · intro w1 w2 j h1 h2
      rcases setWorker_cases _ _ _ _ _ h1 with ⟨he1, hb1⟩ | ⟨he1, hb1⟩ <;>
        rcases setWorker_cases _ _ _ _ _ h2 with ⟨he2, hb2⟩ | ⟨he2, hb2⟩
      · rw [he1, he2]
      · cases hb1
      · cases hb2
      · exact hI.busy_uniq w1 w2 j hb1 hb2
    · intro j hj
      show j ∈ insert i st.uploaded ∨ _
      rcases hI.below_next j hj with h | ⟨w2, h⟩
      · exact Or.inl (Finset.mem_insert_of_mem h)
      · by_cases hne : w2 = w
        · rw [hne, hw] at h
          cases h
          exact Or.inl (Finset.mem_insert_self i st.uploaded)
        · exact Or.inr ⟨w2, (setWorker_other st.workers w w2 _ hne).trans h⟩
    · intro w2 h2
      rcases setWorker_cases _ _ _ _ _ h2 with ⟨_, hb⟩ | ⟨_, hb⟩
      · cases hb
      · exact hI.done_next w2 hb

end DCS

namespace DCS

theorem run_inv (T : Nat) {C : Nat} (S0 : Finset Nat) :
    ∀ (sched : List (Fin C)) (st : PoolState C),
      PoolInv T S0 st → PoolInv T S0 (run T st sched) := by
  intro sched
  induction sched with
  | nil => intro st h; exact h
  | cons w ws ih =>
    intro st h
    exact ih (step T st w) (step_inv T S0 st h w)

theorem pool_final (T : Nat) {C : Nat} (S0 : Finset Nat) (st : PoolState C)
    (hC : 0 < C) (hI : PoolInv T S0 st) (hterm : terminal st) :
    st.log.Nodup ∧ st.log.toFinset = Finset.range T \ S0 := by
  have hnext : st.next = T := hI.done_next ⟨0, hC⟩ (hterm ⟨0, hC⟩)
  refine ⟨hI.log_nodup, ?_⟩
  ext j
  rw [Finset.mem_sdiff, Finset.mem_range, List.mem_toFinset]
  constructor
  · intro h
    exact ⟨hI.log_lt j h, hI.log_notS0 j h⟩
  · intro ⟨hjT, hjS0⟩
    have hbelow := hI.below_next j (by omega)
    rcases hbelow with h | ⟨w, h⟩
    · rw [hI.up_eq, Finset.mem_union, List.mem_toFinset] at h
      rcases h with h | h
      · exact absurd h hjS0
      · exact h
    · rw [hterm w] at h
      cases h

/-- C5: for every concurrency `C ∈ [1, T]` and every interleaving of
worker steps, the synchronous claim scan assigns each index to at most
one worker in every reachable pool state; and whenever all workers have
returned, the recorded completions are exactly the indices `0..T-1`,
each exactly once — no duplicates, no omissions. -/
theorem workerPool_exactly_once (C T : Nat) (hC1 : 1 ≤ C) (hCT : C ≤ T) :
    (∀ (sched : List (Fin C)) (w w2 : Fin C) (i : Nat),
      (run T (initPool C T ∅) sched).workers w = .busy i →
      (run T (initPool C T ∅) sched).workers w2 = .busy i → w = w2) ∧
    (∀ sched : List (Fin C), terminal (run T (initPool C T ∅) sched) →
      (run T (initPool C T ∅) sched).log.Nodup ∧
      (run T (initPool C T ∅) sched).log.toFinset = Finset.range T) := by
  have hinit := initPool_inv C T ∅
  constructor
  · intro sched w w2 i h1 h2
    exact (run_inv T ∅ sched _ hinit).busy_uniq w w2 i h1 h2
  · intro sched hterm
    have h := pool_final T ∅ _ (by omega) (run_inv T ∅ sched _ hinit) hterm
    simpa using h

/-- An interleaved two-worker schedule over three chunks: both workers
claim, both finish, one worker takes the last chunk, both then return. -/
def wSched : List (Fin 2) := [0, 1, 0, 1, 0, 0, 0, 1]

/-- Witness for `workerPool_exactly_once`: concurrency 2 over 3 chunks
along `wSched` completes each of 0, 1, 2 exactly once. -/
theorem workerPool_exactly_once_witness :
    terminal (run 3 (initPool 2 3 ∅) wSched) ∧
      (run 3 (initPool 2 3 ∅) wSched).log.Nodup ∧
      (run 3 (initPool 2 3 ∅) wSched).log.toFinset = Finset.range 3 := by
  have h := workerPool_exactly_once 2 3 (by decide) (by decide)
  have hterm : terminal (run 3 (initPool 2 3 ∅) wSched) := by decide
  exact ⟨hterm, (h.2 wSched hterm).1, (h.2 wSched hterm).2⟩

end DCS
